import Mathlib

/-!
Verification of the delivery-profit bot (`src/bot.py`).

The development shallowly embeds the bot's pure parsing functions
(`compute_earn_from_text`, `parse_cash_from_text`), the per-driver shift
state machine behind the commands `/open`, `/close`, `/off`, `/max`,
`/min`, `/report`, the channel message handler `handle_messages`, and the
private correction handler `private_handler`.  Monetary values are exact
rationals; the source's double-precision accumulation of the earnings is
modelled separately by `fl` (round to nearest binary64, ties to even)
and `floatEarnCore`, and proved to coincide with the exact rational sum
whenever that sum stays within `2^53`.  Timestamps are naturals.
Python regular-expression searches are embedded as explicit scanning
functions over `List Char`; the character classes `\d`, `\s`, `\w` are
modelled on the alphabets the bot actually uses (ASCII plus the Cyrillic
block), which covers every trigger, color name and command in the
program.
-/

namespace Bot

/-! ## Character classes and Python `str.lower` -/

/-- ASCII decimal digit, the `\d` class restricted to ASCII. -/
def isDigitC (c : Char) : Bool := '0' ≤ c && c ≤ '9'

/-- Whitespace recognised by the regex class `\s` (ASCII part). -/
def isSpaceC (c : Char) : Bool :=
  c == ' ' || c == '\t' || c == '\n' || c == '\r' || c == '\x0b' || c == '\x0c'

/-- Cyrillic letter (the block У+0400–У+04FF used by the bot's triggers). -/
def isCyr (c : Char) : Bool := 0x400 ≤ c.toNat && c.toNat ≤ 0x4FF

/-- Word character for `\b` boundaries: ASCII alphanumerics, underscore,
and Cyrillic letters. -/
def isWordC (c : Char) : Bool := c.isAlphanum || c == '_' || isCyr c

/-- Python `str.lower` on one character, for the alphabets in play:
ASCII `A`–`Z` and Cyrillic `А`–`Я`, `Ё`. -/
def pyLowerChar (c : Char) : Char :=
  if 'A' ≤ c && c ≤ 'Z' then Char.ofNat (c.toNat + 32)
  else if 'А' ≤ c && c ≤ 'Я' then Char.ofNat (c.toNat + 32)
  else if c == 'Ё' then 'ё'
  else c

/-- Python `str.lower` over a string, as a character map. -/
def pyLower (l : List Char) : List Char := l.map pyLowerChar

/-! ## Substring and word-bounded search -/

/-- Boolean list-prefix test (first mismatch aborts). -/
def isPrefC : List Char → List Char → Bool
  | [], _ => true
  | _ :: _, [] => false
  | a :: as, b :: bs => a == b && isPrefC as bs

/-- Substring containment, Python `pat in s`. -/
def subl (pat : List Char) : List Char → Bool
  | [] => isPrefC pat []
  | c :: t => isPrefC pat (c :: t) || subl pat t

/-- Word-boundary condition on the character adjacent to a match of a
pattern made of word characters: there is no neighbouring word char. -/
def bdry : Option Char → Bool
  | none => true
  | some c => !isWordC c

/-- Boundary on the first character of the remainder after a match. -/
def bdryHead : List Char → Bool
  | [] => true
  | c :: _ => !isWordC c

/-- Embedding of `re.search(r"\b<pat>\b", s)` for a pattern consisting of
word characters: scan all positions, tracking the previous character. -/
def searchWB (pat : List Char) : Option Char → List Char → Bool
  | _, [] => false
  | prev, c :: cs =>
    (bdry prev && isPrefC pat (c :: cs) && bdryHead ((c :: cs).drop pat.length))
      || searchWB pat (some c) cs

/-- Everything after the first `+`, i.e. `text.split("+", 1)[1]`
(empty when there is no `+`). -/
def afterPlus : List Char → List Char
  | [] => []
  | c :: t => if c == '+' then t else afterPlus t

/-- Numeric value of a list of ASCII digits, as `int()` would parse it. -/
def natOfDigits (ds : List Char) : Nat :=
  ds.foldl (fun a c => a * 10 + (c.toNat - 48)) 0

/-! ## The `габ` quantity pattern `(\d+)\s*\*?\s*габ` -/

/-- Attempt to match `(\d+)\s*\*?\s*габ` at the head of the list.
Returns the captured number and the total matched length.  The greedy
semantics of the Python regex coincide with maximal-munch here because
the character classes of adjacent pieces are disjoint. -/
def matchGabAt (l : List Char) : Option (Nat × Nat) :=
  let ds := l.takeWhile isDigitC
  if ds.isEmpty then none
  else
    let r1 := l.drop ds.length
    let s1 := r1.takeWhile isSpaceC
    let r2 := r1.drop s1.length
    let (star, r3) :=
      match r2 with
      | '*' :: t => (1, t)
      | _ => (0, r2)
    let s2 := r3.takeWhile isSpaceC
    let r4 := r3.drop s2.length
    if isPrefC ['г', 'а', 'б'] r4 then
      some (natOfDigits ds, ds.length + s1.length + star + s2.length + 3)
    else none

/-- Embedding of `re.finditer(r"(\d+)\s*\*?\s*габ", s)`: the captured
numbers of the non-overlapping, left-to-right matches. -/
def gabScanList : List Char → List Nat
  | [] => []
  | c :: cs =>
    match matchGabAt (c :: cs) with
    | some (n, len) => n :: gabScanList (cs.drop (len - 1))
    | none => gabScanList cs
termination_by l => l.length
decreasing_by
  all_goals simp [List.length_drop]
  all_goals omega

/-- Embedding of `re.search(r"(\d+)\s*\*?\s*габ", s)` as a Boolean: some
position admits a match. -/
def hasNumGab : List Char → Bool
  | [] => false
  | c :: cs => (matchGabAt (c :: cs)).isSome || hasNumGab cs

/-! ## Price table -/

/-- Price of the base trigger `+` (`PRICE_BASE = 10.00`). -/
def PRICE_BASE : ℚ := 10

/-- Price of the `мк` modifier (`PRICE_MK = 5.00`). -/
def PRICE_MK : ℚ := 5

/-- Per-unit price of the `габ` quantity trigger (`PRICE_GAB_UNIT = 7.00`). -/
def PRICE_GAB_UNIT : ℚ := 7

/-- The `COLORS` table in its Python insertion order. -/
def COLORS : List (String × ℚ) :=
  [("синяя", 8), ("красная", 16), ("оранжевая", 25), ("салатовая", 33),
   ("коричневая", 42), ("светло-серая", 50), ("розовая", 49),
   ("темно-серая", 67), ("голубая", 76)]

/-! ## compute_earn_from_text -/

/-- Base fee and base trigger: `++` anywhere doubles the base. -/
def basePart (tl : List Char) : ℚ × List String :=
  if subl ['+', '+'] tl then (PRICE_BASE * 2, ["++"]) else (PRICE_BASE, ["+"])

/-- Contribution of the word-bounded `мк` modifier. -/
def mkPart (a : List Char) : ℚ × List String :=
  if searchWB ['м', 'к'] none a then (PRICE_MK, ["мк"]) else (0, [])

/-- Contribution of the color keywords, scanned in table order. -/
def colorParts (a : List Char) : ℚ × List String :=
  COLORS.foldl
    (fun acc cp => if subl cp.1.data a then (acc.1 + cp.2, acc.2 ++ [cp.1]) else acc)
    (0, [])

/-- Contribution of the numeric `габ` matches, in text order. -/
def gabParts (a : List Char) : ℚ × List String :=
  let ns := gabScanList a
  (ns.foldl (fun (acc : ℚ) (n : Nat) => acc + (n : ℚ) * PRICE_GAB_UNIT) 0,
   ns.map (fun n => toString n ++ "габ"))

/-- Contribution of the bare word `габ`, suppressed whenever a numeric
`габ` pattern occurs anywhere. -/
def barePart (a : List Char) : ℚ × List String :=
  if searchWB ['г', 'а', 'б'] none a && !hasNumGab a then
    (PRICE_GAB_UNIT, ["габ"])
  else (0, [])

/-- Python `round(x, 2)`: round-half-even at two decimal places. -/
def pyRound2 (q : ℚ) : ℚ :=
  let s := q * 100
  let n : ℤ := ⌊s⌋
  let r := s - (n : ℚ)
  let m : ℤ :=
    if r < 1 / 2 then n
    else if 1 / 2 < r then n + 1
    else if n % 2 = 0 then n else n + 1
  (m : ℚ) / 100

/-- Half-up rounding at two decimal places, following the spec's words
("standard half-up rounding"), for comparison with the code's `round`. -/
def halfUp2 (q : ℚ) : ℚ := ((⌊q * 100 + 1 / 2⌋ : ℤ) : ℚ) / 100

/-- The pre-rounding sum of all contributing prices of a lowered text. -/
def rawEarnCore (tl : List Char) : ℚ :=
  if !subl ['+'] tl then 0
  else
    (basePart tl).1 + (mkPart (afterPlus tl)).1 + (colorParts (afterPlus tl)).1
      + (gabParts (afterPlus tl)).1 + (barePart (afterPlus tl)).1

/-- Core of `compute_earn_from_text` on an already lowered text. -/
def compute_earn_core (tl : List Char) : ℚ × List String :=
  if !subl ['+'] tl then (0, [])
  else
    (pyRound2 ((basePart tl).1 + (mkPart (afterPlus tl)).1
        + (colorParts (afterPlus tl)).1
        + (gabParts (afterPlus tl)).1 + (barePart (afterPlus tl)).1),
     (basePart tl).2 ++ (mkPart (afterPlus tl)).2 ++ (colorParts (afterPlus tl)).2
        ++ (gabParts (afterPlus tl)).2 ++ (barePart (afterPlus tl)).2)

/-- Embedding of `compute_earn_from_text`: lower-case, then parse the
base fee, the `мк` modifier, the colors, the numeric `габ` quantities and
the bare `габ` fallback; round the total at two decimals.  The amount is
the idealized exact rational sum; the float-accurate amount is
`compute_earn_float` below. -/
def compute_earn_from_text (text : String) : ℚ × List String :=
  compute_earn_core (pyLower text.data)

/-! ## Double-precision model of the accumulation

The source accumulates `earn` in a Python float (IEEE-754 binary64).
`fl` rounds an exact rational to the nearest double (53 significant
bits, ties to even); overflow and subnormals are not modelled, as every
value reached here is far inside the normal range. -/

/-- Round to the nearest integer, ties to even. -/
def rne (m : ℚ) : ℤ :=
  if m - (⌊m⌋ : ℚ) < 1 / 2 then ⌊m⌋
  else if 1 / 2 < m - (⌊m⌋ : ℚ) then ⌊m⌋ + 1
  else if ⌊m⌋ % 2 = 0 then ⌊m⌋ else ⌊m⌋ + 1

/-- Round a rational to the nearest IEEE-754 double: scale into the
53-bit significand range using the binary exponent, round to the
nearest integer with ties to even, and scale back. -/
def fl (q : ℚ) : ℚ :=
  if q = 0 then 0
  else
    if 0 < q then
      ((rne (q / 2 ^ (Int.log 2 q - 52)) : ℤ) : ℚ) * 2 ^ (Int.log 2 q - 52)
    else
      -(((rne (-q / 2 ^ (Int.log 2 (-q) - 52)) : ℤ) : ℚ) * 2 ^ (Int.log 2 (-q) - 52))

/-- One float addition, `x + y` on Python floats. -/
def fladd (x y : ℚ) : ℚ := fl (x + y)

/-- One float multiplication, `x * y` on Python floats. -/
def flmul (x y : ℚ) : ℚ := fl (x * y)

/-- Amount-only version of the color fold, with exact additions. -/
def colFoldQ (a : List Char) (cl : List (String × ℚ)) (acc : ℚ) : ℚ :=
  cl.foldl (fun acc cp => if subl cp.1.data a then acc + cp.2 else acc) acc

/-- The color fold with float additions, as `earn += price` computes. -/
def flColorFold (a : List Char) (cl : List (String × ℚ)) (acc : ℚ) : ℚ :=
  cl.foldl (fun acc cp => if subl cp.1.data a then fladd acc cp.2 else acc) acc

/-- The `габ` fold with float operations: `earn += n * PRICE_GAB_UNIT`
converts `n` to float, multiplies, and adds, each step rounding. -/
def flGabFold (acc : ℚ) (ns : List Nat) : ℚ :=
  ns.foldl (fun (acc : ℚ) (n : Nat) => fladd acc (flmul (fl (n : ℚ)) PRICE_GAB_UNIT)) acc

/-- Float accumulation after the base fee (`earn = 0.0; earn += ...`). -/
def flStage1 (tl : List Char) : ℚ :=
  if subl ['+', '+'] tl then fladd 0 (flmul PRICE_BASE 2) else fladd 0 PRICE_BASE

/-- Float accumulation after the `мк` modifier. -/
def flStage2 (tl : List Char) : ℚ :=
  if searchWB ['м', 'к'] none (afterPlus tl) then fladd (flStage1 tl) PRICE_MK
  else flStage1 tl

/-- Float accumulation after the color keywords. -/
def flStage3 (tl : List Char) : ℚ :=
  flColorFold (afterPlus tl) COLORS (flStage2 tl)

/-- Float accumulation after the numeric `габ` matches. -/
def flStage4 (tl : List Char) : ℚ :=
  flGabFold (flStage3 tl) (gabScanList (afterPlus tl))

/-- The earnings accumulation exactly as the program computes it, in
double precision, statement by statement. -/
def floatEarnCore (tl : List Char) : ℚ :=
  if !subl ['+'] tl then 0
  else if searchWB ['г', 'а', 'б'] none (afterPlus tl)
      && !hasNumGab (afterPlus tl) then
    fladd (flStage4 tl) PRICE_GAB_UNIT
  else flStage4 tl

/-- The amount the program returns under float semantics: the float
accumulation rounded at two decimals.  The accumulated value is always
an integer-valued double here, on which Python's `round(x, 2)` agrees
with exact half-even rounding. -/
def compute_earn_float (text : String) : ℚ :=
  pyRound2 (floatEarnCore (pyLower text.data))

/-! ## parse_cash_from_text -/

/-- Find the leftmost match of `\d+[.,]?\d*` and return its value with
`,` read as the decimal point.  The trailing look-ahead
`(?=\s*(р|руб|руб\.|р\.)?)` of the source regex is vacuous (its group is
optional) and contributes nothing. -/
def searchNum : List Char → Option ℚ
  | [] => none
  | c :: cs =>
    if isDigitC c then
      let ds := (c :: cs).takeWhile isDigitC
      let r1 := (c :: cs).drop ds.length
      match r1 with
      | sep :: r2 =>
        if sep == '.' || sep == ',' then
          let fs := r2.takeWhile isDigitC
          some ((natOfDigits ds : ℚ) + (natOfDigits fs : ℚ) / (10 : ℚ) ^ fs.length)
        else some (natOfDigits ds : ℚ)
      | [] => some (natOfDigits ds : ℚ)
    else searchNum cs

/-- Embedding of `parse_cash_from_text`: value of the first numeric
token, `0` when none exists. -/
def parse_cash_from_text (text : String) : ℚ :=
  match searchNum text.data with
  | some q => q
  | none => 0

/-! ## Driver state and world

Driver records are Python dicts; a missing key and a stored falsy value
behave identically under `st.get(...)`, so Boolean fields default to
`false` and timestamps are `Option Nat` (absent = `None`).  The
notification mode is `Option Mode` because `cmd_open` distinguishes a
missing `"mode"` key (defaulted to `"min"`) from a stored one. -/

/-- Notification mode, `"min"` (summary) or `"max"` (detailed). -/
inductive Mode
  | min
  | max
deriving DecidableEq, Repr

/-- Per-driver record as stored under `DATA["drivers"][uid]`. -/
structure DriverSt where
  open_ : Bool := false
  open_time : Option Nat := none
  close_time : Option Nat := none
  mode : Option Mode := none
  entries : List Nat := []
  last_activity : Option Nat := none
  off : Bool := false
  ready_for_report : Bool := false
  reminder_sent : Bool := false
deriving DecidableEq, Repr

/-- A committed or pending delivery entry in `DATA["entries"]`. -/
structure Entry where
  id : Nat
  driver_id : Nat
  chat_id : Int
  thread_id : Option Int
  text : String
  ts : Nat
  processed : Bool
  accepted_ts : Option Nat
  earn : ℚ
  cash : ℚ
deriving DecidableEq, Repr

/-- An in-memory `AWAITING_CORRECTION` record. -/
structure Correction where
  orig_chat : Int
  orig_msg : Nat
  bot_msg : Nat
  expecting_private : Bool
deriving DecidableEq, Repr

/-- The mutable state the handlers read and write: the driver table,
the entry list, and the in-memory correction table. -/
structure World where
  drivers : List (Nat × DriverSt) := []
  entries : List Entry := []
  awaiting : List (Nat × Correction) := []
deriving DecidableEq, Repr

/-- Driver lookup with the Python `drivers.get(uid, {})` default. -/
def getDriver (w : World) (uid : Nat) : DriverSt :=
  (w.drivers.lookup uid).getD {}

/-- Store a driver record under its id (Python dict assignment). -/
def putDriver (w : World) (uid : Nat) (st : DriverSt) : World :=
  { w with drivers := (uid, st) :: w.drivers.filter (fun p => p.1 ≠ uid) }

/-- Correction lookup, `AWAITING_CORRECTION.get(uid)`. -/
def getAwaiting (w : World) (uid : Nat) : Option Correction :=
  w.awaiting.lookup uid

/-- Store a correction record (dict assignment). -/
def putAwaiting (w : World) (uid : Nat) (c : Correction) : World :=
  { w with awaiting := (uid, c) :: w.awaiting.filter (fun p => p.1 ≠ uid) }

/-- Remove a correction record, `AWAITING_CORRECTION.pop(uid, None)`. -/
def dropAwaiting (w : World) (uid : Nat) : World :=
  { w with awaiting := w.awaiting.filter (fun p => p.1 ≠ uid) }

/-- Embedding of `next_entry_id`: one more than the largest stored id
(`1` on an empty store). -/
def next_entry_id (entries : List Entry) : Nat :=
  entries.foldl (fun a e => max a e.id) 0 + 1

/-! ## Commands -/

/-- Embedding of `cmd_open`: unconditionally (re)opens the shift,
records the open time, defaults a missing mode to `min`, clears the
off-flag and refreshes the activity stamp.  The source has no guard on
the current state and does not touch `ready_for_report`. -/
def cmd_open (st : DriverSt) (now : Nat) : DriverSt :=
  { st with
    open_ := true
    open_time := some now
    mode := some (st.mode.getD Mode.min)
    last_activity := some now
    off := false }

/-- Embedding of `cmd_max`. -/
def cmd_max (st : DriverSt) : DriverSt := { st with mode := some Mode.max }

/-- Embedding of `cmd_min`. -/
def cmd_min (st : DriverSt) : DriverSt := { st with mode := some Mode.min }

/-- Embedding of `cmd_off`. -/
def cmd_off (st : DriverSt) : DriverSt := { st with off := true }

/-- Embedding of `cmd_close` on the driver record: refused when the
shift is not open; otherwise closes it, records the close time, and
schedules the 5-minute ready-flag timer (second component `true`). -/
def cmd_close (st : DriverSt) (now : Nat) : DriverSt × Bool :=
  if !st.open_ then (st, false)
  else ({ st with open_ := false, close_time := some now }, true)

/-- The body of the `ready_flag` task scheduled by `cmd_close`: it sets
`ready_for_report` unconditionally, whatever happened in between. -/
def ready_flag (st : DriverSt) : DriverSt :=
  { st with ready_for_report := true }

/-- Reply produced by `cmd_report`; the three refusal messages of the
source are distinct constructors, success carries the totals. -/
inductive ReportReply
  | refusedShiftOpen
  | refusedNotReady
  | refusedNotOff
  | report (income cash balance : ℚ) (count : Nat)
deriving DecidableEq, Repr

/-- Entries aggregated by `/report`: the driver's processed entries
whose acceptance time lies in `[open_time, close_time]` (none when
either bound is missing, as in the source's `if open_t and close_t`). -/
def reportEntries (w : World) (uid : Nat) (st : DriverSt) : List Entry :=
  w.entries.filter (fun e =>
    e.driver_id = uid && e.processed &&
      match st.open_time, st.close_time, e.accepted_ts with
      | some ot, some ct, some et => decide (ot ≤ et) && decide (et ≤ ct)
      | _, _, _ => false)

/-- Total earned over a list of entries. -/
def sumEarn (es : List Entry) : ℚ := es.foldl (fun a e => a + e.earn) 0

/-- Total cash over a list of entries. -/
def sumCash (es : List Entry) : ℚ := es.foldl (fun a e => a + e.cash) 0

/-- Embedding of `cmd_report`: three guards in source order, each
leaving the world untouched; on success the totals are computed and
`ready_for_report` is reset. -/
def cmd_report (w : World) (uid : Nat) : ReportReply × World :=
  if (getDriver w uid).open_ then (ReportReply.refusedShiftOpen, w)
  else if !(getDriver w uid).ready_for_report then (ReportReply.refusedNotReady, w)
  else if !(getDriver w uid).off then (ReportReply.refusedNotOff, w)
  else
    (ReportReply.report (sumEarn (reportEntries w uid (getDriver w uid)))
       (sumCash (reportEntries w uid (getDriver w uid)))
       (pyRound2 (sumCash (reportEntries w uid (getDriver w uid))
         - sumEarn (reportEntries w uid (getDriver w uid))))
       (reportEntries w uid (getDriver w uid)).length,
     putDriver w uid { getDriver w uid with ready_for_report := false })

/-! ## Channel message handler -/

/-- The `ALLOWED` chat-to-thread table of the source. -/
def ALLOWED : List (Int × Int) :=
  [(-1002079167705, 48), (-1002936236597, 3), (-1002423500927, 2),
   (-1003117964688, 5), (-1002864795738, 3), (-1002535060344, 5),
   (-1002477650634, 3), (-1003204457764, 4), (-1002660511483, 3),
   (-1002360529455, 3), (-1002538985387, 3)]

/-- An inbound channel message as the handler sees it. -/
structure Msg where
  chat_id : Int
  thread_id : Option Int
  from_id : Nat
  message_id : Nat
  text : String
  date : Nat
deriving DecidableEq, Repr

/-- Outcome of `handle_messages`: silently ignored, correction prompt
sent (carrying the prompt message id), or a pending entry created. -/
inductive HandleOut
  | ignored
  | prompt (promptMsgId : Nat)
  | accepted (eid : Nat)
deriving DecidableEq, Repr

/-- Embedding of `handle_messages`: filter by the allow-list and thread,
drop messages from drivers whose shift is not open, start the correction
flow when `+` is missing, otherwise append a pending (unprocessed) entry
and schedule the delayed commit.  `promptMsgId` is the transport-chosen
id of the bot's prompt message. -/
def handle_messages (w : World) (m : Msg) (promptMsgId : Nat) : HandleOut × World :=
  match ALLOWED.lookup m.chat_id with
  | none => (HandleOut.ignored, w)
  | some expected =>
    if m.thread_id ≠ some expected then (HandleOut.ignored, w)
    else
      let st := getDriver w m.from_id
      if !st.open_ then (HandleOut.ignored, w)
      else if !subl ['+'] m.text.data then
        (HandleOut.prompt promptMsgId,
         putAwaiting w m.from_id
           { orig_chat := m.chat_id, orig_msg := m.message_id,
             bot_msg := promptMsgId, expecting_private := false })
      else
        let eid := next_entry_id w.entries
        (HandleOut.accepted eid,
         { w with entries := w.entries ++
            [{ id := eid, driver_id := m.from_id, chat_id := m.chat_id,
               thread_id := m.thread_id, text := m.text, ts := m.date,
               processed := false, accepted_ts := none, earn := 0, cash := 0 }] })

/-- The body of the delayed 5-minute commit task for entry `eid`:
re-fetch the entry, abort silently when it is gone, otherwise run both
parsers and mark it processed, then refresh the driver's activity. -/
def delayed_commit (w : World) (eid : Nat) (uid : Nat) (now : Nat) : World :=
  match w.entries.find? (fun e => e.id = eid) with
  | none => w
  | some _ =>
    let w1 := { w with entries := w.entries.map (fun e =>
      if e.id = eid then
        { e with earn := (compute_earn_from_text e.text).1,
                 cash := parse_cash_from_text e.text,
                 processed := true, accepted_ts := some now }
      else e) }
    let st := getDriver w1 uid
    putDriver w1 uid { st with last_activity := some now }

/-! ## Correction flow -/

/-- Embedding of `callback_repeat`: when a correction is pending, flip
its `expecting_private` flag. -/
def callback_repeat (w : World) (uid : Nat) : World :=
  match getAwaiting w uid with
  | none => w
  | some info => putAwaiting w uid { info with expecting_private := true }

/-- Outcome of `private_handler`. -/
inductive PrivOut
  | ignored
  | retry
  | accepted (eid : Nat)
deriving DecidableEq, Repr

/-- Embedding of `private_handler`: only acts when the sender has a
correction record with `expecting_private`; a text still lacking `+` is
rejected with a retry message; otherwise a new entry is appended
already processed, with both parsers run synchronously, and the
correction record is cleared.  The driver's shift state is never
consulted. -/
def private_handler (w : World) (uid : Nat) (text : String) (now : Nat) :
    PrivOut × World :=
  match getAwaiting w uid with
  | none => (PrivOut.ignored, w)
  | some info =>
    if !info.expecting_private then (PrivOut.ignored, w)
    else if !subl ['+'] text.data then (PrivOut.retry, w)
    else
      let eid := next_entry_id w.entries
      let entry : Entry :=
        { id := eid, driver_id := uid, chat_id := info.orig_chat,
          thread_id := ALLOWED.lookup info.orig_chat, text := text, ts := now,
          processed := true, accepted_ts := some now,
          earn := (compute_earn_from_text text).1,
          cash := parse_cash_from_text text }
      (PrivOut.accepted eid,
       dropAwaiting { w with entries := w.entries ++ [entry] } uid)

/-! ## Event machine for reachability

One driver's record together with the number of outstanding
`ready_flag` timers; events are the commands, a channel submission
(with its later delayed commit), the sweep's auto-close, and the firing
of a scheduled ready-flag timer. -/

/-- Machine state: the driver's record and the count of scheduled
`ready_flag` tasks not yet fired. -/
structure MState where
  st : DriverSt
  pendingReady : Nat
deriving DecidableEq, Repr

/-- Events that touch a driver's record. -/
inductive Ev
  | eopen (now : Nat)
  | eclose (now : Nat)
  | eoff
  | emax
  | emin
  | ereport
  | ecommit (now : Nat)
  | eautoclose (now : Nat)
  | efire
deriving DecidableEq, Repr

/-- One step of the per-driver machine.  `efire` runs one outstanding
`ready_flag` task; `ecommit` is the driver-visible effect of a delayed
entry commit; `eautoclose` is the 23:00 sweep branch. -/
def mstep (s : MState) : Ev → MState
  | Ev.eopen t => { s with st := cmd_open s.st t }
  | Ev.eclose t =>
    let r := cmd_close s.st t
    { st := r.1, pendingReady := s.pendingReady + (if r.2 then 1 else 0) }
  | Ev.eoff => { s with st := cmd_off s.st }
  | Ev.emax => { s with st := cmd_max s.st }
  | Ev.emin => { s with st := cmd_min s.st }
  | Ev.ereport =>
    if s.st.open_ then s
    else if !s.st.ready_for_report then s
    else if !s.st.off then s
    else { s with st := { s.st with ready_for_report := false } }
  | Ev.ecommit t => { s with st := { s.st with last_activity := some t } }
  | Ev.eautoclose t =>
    if s.st.open_ then
      { s with st := { s.st with open_ := false, close_time := some t,
                                 ready_for_report := true } }
    else s
  | Ev.efire =>
    if s.pendingReady = 0 then s
    else { st := ready_flag s.st, pendingReady := s.pendingReady - 1 }

/-- Run a sequence of events from a state. -/
def mrun (s : MState) (evs : List Ev) : MState := evs.foldl mstep s

/-- The initial state of a fresh driver: empty record, no timers. -/
def minit : MState := { st := {}, pendingReady := 0 }

/-! ## Store lemmas -/

theorem lookup_filter_ne {α : Type} (uid : Nat) (l : List (Nat × α)) :
    (l.filter (fun p => p.1 ≠ uid)).lookup uid = none := by
  induction l with
  | nil => rfl
  | cons h t ih =>
    rw [List.filter_cons]
    by_cases hh : h.1 = uid
    · simp only [hh, ne_eq, not_true_eq_false, decide_False, Bool.false_eq_true, if_false]
      exact ih
    · simp only [ne_eq, hh, not_false_eq_true, decide_True, if_true, List.lookup]
      have hbeq : (uid == h.1) = false := by
        simp [Ne.symm hh]
      rw [hbeq]
      exact ih

theorem getDriver_putDriver (w : World) (uid : Nat) (st : DriverSt) :
    getDriver (putDriver w uid st) uid = st := by
  simp [getDriver, putDriver, List.lookup]

theorem getAwaiting_putAwaiting (w : World) (uid : Nat) (c : Correction) :
    getAwaiting (putAwaiting w uid c) uid = some c := by
  simp [getAwaiting, putAwaiting, List.lookup]

theorem getAwaiting_dropAwaiting (w : World) (uid : Nat) :
    getAwaiting (dropAwaiting w uid) uid = none :=
  lookup_filter_ne uid w.awaiting

theorem entries_putAwaiting (w : World) (uid : Nat) (c : Correction) :
    (putAwaiting w uid c).entries = w.entries := rfl

/-! ## Character lemmas: lower-casing preserves `+` -/

theorem toNat_ofNat_valid (n : Nat) (h : n.isValidChar) : (Char.ofNat n).toNat = n := by
  rw [Char.ofNat, dif_pos h]
  rfl

theorem char_le_toNat {a b : Char} (h : a ≤ b) : a.toNat ≤ b.toNat := h

theorem pyLowerChar_plus {c : Char} : pyLowerChar c = '+' ↔ c = '+' := by
  constructor
  · intro h
    unfold pyLowerChar at h
    by_cases h1 : ('A' ≤ c && c ≤ 'Z') = true
    · rw [if_pos h1] at h
      obtain ⟨ha, hz⟩ := Bool.and_eq_true_iff.mp h1
      have ha' : ('A').toNat ≤ c.toNat := char_le_toNat (of_decide_eq_true ha)
      have hz' : c.toNat ≤ ('Z').toNat := char_le_toNat (of_decide_eq_true hz)
      have hv : (c.toNat + 32).isValidChar := by
        left
        have : ('Z').toNat = 90 := by decide
        omega
      have h2 := congrArg Char.toNat h
      rw [toNat_ofNat_valid _ hv] at h2
      have hA : ('A').toNat = 65 := by decide
      have hP : ('+').toNat = 43 := by decide
      omega
    · rw [if_neg h1] at h
      by_cases h2 : ('А' ≤ c && c ≤ 'Я') = true
      · rw [if_pos h2] at h
        obtain ⟨ha, hz⟩ := Bool.and_eq_true_iff.mp h2
        have ha' : ('А').toNat ≤ c.toNat := char_le_toNat (of_decide_eq_true ha)
        have hv : (c.toNat + 32).isValidChar := by
          have hz' : c.toNat ≤ ('Я').toNat := char_le_toNat (of_decide_eq_true hz)
          left
          have : ('Я').toNat = 1071 := by decide
          omega
        have h3 := congrArg Char.toNat h
        rw [toNat_ofNat_valid _ hv] at h3
        have hA : ('А').toNat = 1040 := by decide
        have hP : ('+').toNat = 43 := by decide
        omega
      · rw [if_neg h2] at h
        by_cases h3 : (c == 'Ё') = true
        · rw [if_pos h3] at h
          exact absurd h (by decide)
        · rwa [if_neg h3] at h
  · intro h
    subst h
    decide

theorem beq_plus_pyLowerChar (c : Char) : ('+' == pyLowerChar c) = ('+' == c) := by
  by_cases hc : c = '+'
  · subst hc
    decide
  · have h1 : pyLowerChar c ≠ '+' := fun h => hc (pyLowerChar_plus.mp h)
    simp [hc, Ne.symm hc, Ne.symm h1]

theorem subl_single_plus (l : List Char) : subl ['+'] l = true ↔ '+' ∈ l := by
  induction l with
  | nil => simp [subl, isPrefC]
  | cons c t ih =>
    rw [subl]
    simp only [isPrefC, Bool.or_eq_true, Bool.and_eq_true, beq_iff_eq, List.mem_cons, ih,
      and_true]

theorem isPrefC_pp_pyLower (l : List Char) :
    isPrefC ['+', '+'] (pyLower l) = isPrefC ['+', '+'] l := by
  match l with
  | [] => rfl
  | [c] =>
    show isPrefC ['+', '+'] [pyLowerChar c] = isPrefC ['+', '+'] [c]
    simp [isPrefC]
  | c :: d :: t =>
    show isPrefC ['+', '+'] (pyLowerChar c :: pyLowerChar d :: pyLower t)
        = isPrefC ['+', '+'] (c :: d :: t)
    simp [isPrefC, beq_plus_pyLowerChar]

theorem subl_pp_pyLower (l : List Char) :
    subl ['+', '+'] (pyLower l) = subl ['+', '+'] l := by
  induction l with
  | nil => rfl
  | cons c t ih =>
    show subl ['+', '+'] (pyLowerChar c :: pyLower t) = _
    rw [subl, subl]
    rw [show pyLowerChar c :: pyLower t = pyLower (c :: t) from rfl]
    rw [isPrefC_pp_pyLower, ih]

theorem toDigitsCore_length_ge (b : Nat) :
    ∀ (fuel n : Nat) (ds : List Char),
      ds.length ≤ (Nat.toDigitsCore b fuel n ds).length := by
  intro fuel
  induction fuel with
  | zero => intro n ds; simp [Nat.toDigitsCore]
  | succ f ih =>
    intro n ds
    rw [Nat.toDigitsCore]
    by_cases hz : n / b = 0
    · rw [if_pos hz]
      simp
    · rw [if_neg hz]
      calc ds.length ≤ (Nat.digitChar (n % b) :: ds).length := by simp
        _ ≤ _ := ih _ _

theorem toDigitsCore_length_pos (b fuel n : Nat) (ds : List Char) (h : 0 < fuel) :
    ds.length + 1 ≤ (Nat.toDigitsCore b fuel n ds).length := by
  cases fuel with
  | zero => omega
  | succ f =>
    rw [Nat.toDigitsCore]
    by_cases hz : n / b = 0
    · rw [if_pos hz]
      simp
    · rw [if_neg hz]
      calc ds.length + 1 = (Nat.digitChar (n % b) :: ds).length := by simp
        _ ≤ _ := toDigitsCore_length_ge b f _ _

/-- The decimal representation of a natural number is never empty. -/
theorem toString_nat_length_pos (n : Nat) : 1 ≤ (toString n).length := by
  show 1 ≤ (Nat.repr n).length
  have h := toDigitsCore_length_pos 10 (n + 1) n [] (by omega)
  simp only [List.length_nil] at h
  show 1 ≤ (Nat.toDigits 10 n).asString.length
  rw [show (Nat.toDigits 10 n).asString.length = (Nat.toDigits 10 n).length from rfl]
  exact h

theorem memMkPart (a : List Char) (s : String) (h : s ∈ (mkPart a).2) : s = "мк" := by
  unfold mkPart at h
  by_cases hc : searchWB ['м', 'к'] none a = true
  · rw [if_pos hc] at h
    simpa using h
  · rw [if_neg hc] at h
    simp at h

theorem memColorFold (a : List Char) (cl : List (String × ℚ)) (s : String) :
    ∀ acc : ℚ × List String,
      s ∈ (cl.foldl
            (fun acc cp =>
              if subl cp.1.data a then (acc.1 + cp.2, acc.2 ++ [cp.1]) else acc) acc).2 →
      s ∈ acc.2 ∨ s ∈ cl.map Prod.fst := by
  induction cl with
  | nil => intro acc h; exact Or.inl h
  | cons hd tl ih =>
    intro acc h
    rw [List.foldl_cons] at h
    rcases ih _ h with hacc | htl
    · by_cases hc : subl hd.1.data a = true
      · rw [if_pos hc] at hacc
        rcases List.mem_append.mp hacc with h1 | h1
        · exact Or.inl h1
        · simp at h1
          subst h1
          exact Or.inr (by simp)
      · rw [if_neg hc] at hacc
        exact Or.inl hacc
    · exact Or.inr (by simp [htl])

theorem memColorParts (a : List Char) (s : String) (h : s ∈ (colorParts a).2) :
    s ∈ COLORS.map Prod.fst := by
  rcases memColorFold a COLORS s (0, []) h with h1 | h1
  · simp at h1
  · exact h1

theorem memGabParts (a : List Char) (s : String) (h : s ∈ (gabParts a).2) :
    ∃ n : Nat, s = toString n ++ "габ" := by
  unfold gabParts at h
  simp only [List.mem_map] at h
  obtain ⟨n, _, hn⟩ := h
  exact ⟨n, hn.symm⟩

theorem memBarePart (a : List Char) (s : String) (h : s ∈ (barePart a).2) : s = "габ" := by
  unfold barePart at h
  by_cases hc : (searchWB ['г', 'а', 'б'] none a && !hasNumGab a) = true
  · rw [if_pos hc] at h
    simpa using h
  · rw [if_neg hc] at h
    simp at h

/-- No modifier trigger is the base tag `+` or `++`. -/
theorem memModTriggers_ne_base (a : List Char) (s : String)
    (h : s ∈ (mkPart a).2 ++ (colorParts a).2 ++ (gabParts a).2 ++ (barePart a).2) :
    s ≠ "+" ∧ s ≠ "++" ∧ s ≠ "габ" ∨ s = "мк" ∨ s ∈ COLORS.map Prod.fst ∨ s = "габ" := by
  rcases List.mem_append.mp h with h1 | hbare
  · rcases List.mem_append.mp h1 with h2 | hgab
    · rcases List.mem_append.mp h2 with hmk | hcol
      · exact Or.inr (Or.inl (memMkPart a s hmk))
      · exact Or.inr (Or.inr (Or.inl (memColorParts a s hcol)))
    · obtain ⟨n, hn⟩ := memGabParts a s hgab
      refine Or.inl ⟨?_, ?_, ?_⟩ <;> intro hs <;> subst hn
      · have hlen := congrArg String.length hs
        rw [String.length_append] at hlen
        have h3 : ("габ" : String).length = 3 := by decide
        have h1 : ("+" : String).length = 1 := by decide
        omega
      · have hlen := congrArg String.length hs
        rw [String.length_append] at hlen
        have h3 : ("габ" : String).length = 3 := by decide
        have h2 : ("++" : String).length = 2 := by decide
        omega
      · have hlen := congrArg String.length hs
        rw [String.length_append] at hlen
        have h3 : ("габ" : String).length = 3 := by decide
        have h4 := toString_nat_length_pos n
        omega
  · exact Or.inr (Or.inr (Or.inr (memBarePart a s hbare)))

/-- Only base tags among the modifier triggers: neither `+` nor `++`
ever occurs there. -/
theorem memModTriggers_no_plus (a : List Char) (s : String)
    (h : s ∈ (mkPart a).2 ++ (colorParts a).2 ++ (gabParts a).2 ++ (barePart a).2) :
    s ≠ "+" ∧ s ≠ "++" := by
  rcases memModTriggers_ne_base a s h with ⟨h1, h2, _⟩ | h1 | h1 | h1
  · exact ⟨h1, h2⟩
  · subst h1
    exact ⟨by decide, by decide⟩
  · simp [COLORS] at h1
    rcases h1 with h | h | h | h | h | h | h | h | h <;> subst h <;>
      exact ⟨by decide, by decide⟩
  · subst h1
    exact ⟨by decide, by decide⟩

/-! ## Rounding and integrality lemmas -/

theorem pyRound2_natCast (k : ℕ) : pyRound2 (k : ℚ) = k := by
  show ((if ((k : ℚ) * 100) - ((⌊(k : ℚ) * 100⌋ : ℤ) : ℚ) < 1 / 2 then (⌊(k : ℚ) * 100⌋ : ℤ)
      else if 1 / 2 < ((k : ℚ) * 100) - ((⌊(k : ℚ) * 100⌋ : ℤ) : ℚ) then ⌊(k : ℚ) * 100⌋ + 1
      else if ⌊(k : ℚ) * 100⌋ % 2 = 0 then ⌊(k : ℚ) * 100⌋
      else ⌊(k : ℚ) * 100⌋ + 1 : ℤ) : ℚ) / 100 = k
  have h1 : ((k : ℚ) * 100) = (((k * 100 : ℕ) : ℤ) : ℚ) := by push_cast; ring
  rw [h1, Int.floor_intCast]
  norm_num

theorem pyRound2_zero : pyRound2 0 = 0 := by
  simpa using pyRound2_natCast 0

theorem halfUp2_natCast (k : ℕ) : halfUp2 (k : ℚ) = k := by
  unfold halfUp2
  have h1 : (k : ℚ) * 100 + 1 / 2 = (((k * 100 : ℕ) : ℤ) : ℚ) + 1 / 2 := by
    push_cast
    ring
  rw [h1, Int.floor_int_add]
  norm_num

theorem nat_of_den_one (q : ℚ) (h1 : q.den = 1) (h2 : 0 ≤ q.num) :
    ∃ k : ℕ, q = (k : ℚ) := by
  refine ⟨q.num.toNat, ?_⟩
  have h3 : ((q.num.toNat : ℤ) : ℚ) = (q.num : ℚ) := by
    exact_mod_cast congrArg (fun z : ℤ => (z : ℚ)) (Int.toNat_of_nonneg h2)
  have h4 : ((q.num : ℚ)) = q := by
    conv_rhs => rw [← Rat.num_div_den q]
    rw [h1]
    norm_num
  conv_lhs => rw [← h4, ← h3]
  push_cast
  ring

theorem basePart_nat (tl : List Char) : ∃ k : ℕ, (basePart tl).1 = (k : ℚ) := by
  unfold basePart
  by_cases h : subl ['+', '+'] tl = true
  · exact ⟨20, by rw [if_pos h]; norm_num [PRICE_BASE]⟩
  · exact ⟨10, by rw [if_neg h]; norm_num [PRICE_BASE]⟩

theorem mkPart_nat (a : List Char) : ∃ k : ℕ, (mkPart a).1 = (k : ℚ) := by
  unfold mkPart
  by_cases h : searchWB ['м', 'к'] none a = true
  · exact ⟨5, by rw [if_pos h]; norm_num [PRICE_MK]⟩
  · exact ⟨0, by rw [if_neg h]; norm_num⟩

theorem colorFold_nat (a : List Char) (cl : List (String × ℚ))
    (hcl : ∀ p ∈ cl, ∃ k : ℕ, p.2 = (k : ℚ)) :
    ∀ acc : ℚ × List String, (∃ k : ℕ, acc.1 = (k : ℚ)) →
      ∃ k : ℕ,
        (cl.foldl
          (fun acc cp =>
            if subl cp.1.data a then (acc.1 + cp.2, acc.2 ++ [cp.1]) else acc) acc).1
          = (k : ℚ) := by
  induction cl with
  | nil => intro acc h; exact h
  | cons hd tl ih =>
    rintro acc ⟨k, hk⟩
    rw [List.foldl_cons]
    apply ih (fun p hp => hcl p (List.mem_cons_of_mem _ hp))
    by_cases hc : subl hd.1.data a = true
    · rw [if_pos hc]
      obtain ⟨m, hm⟩ := hcl hd (List.mem_cons_self _ _)
      refine ⟨k + m, ?_⟩
      show acc.1 + hd.2 = ((k + m : ℕ) : ℚ)
      rw [hk, hm]
      push_cast
      ring
    · rw [if_neg hc]
      exact ⟨k, hk⟩

theorem colorParts_nat (a : List Char) : ∃ k : ℕ, (colorParts a).1 = (k : ℚ) := by
  have hcl : ∀ p ∈ COLORS, ∃ k : ℕ, p.2 = (k : ℚ) := by
    intro p hp
    simp only [COLORS, List.mem_cons, List.not_mem_nil, or_false] at hp
    rcases hp with rfl | rfl | rfl | rfl | rfl | rfl | rfl | rfl | rfl <;>
      exact nat_of_den_one _ (by decide) (by decide)
  have h := colorFold_nat a COLORS hcl (0, []) ⟨0, by norm_num⟩
  exact h

theorem gabFold_nat (ns : List Nat) :
    ∀ acc : ℚ, (∃ k : ℕ, acc = (k : ℚ)) →
      ∃ k : ℕ,
        List.foldl (fun (acc : ℚ) (n : ℕ) => acc + (n : ℚ) * PRICE_GAB_UNIT) acc ns
          = (k : ℚ) := by
  induction ns with
  | nil => intro acc h; exact h
  | cons n t ih =>
    rintro acc ⟨k, hk⟩
    rw [List.foldl_cons]
    apply ih
    refine ⟨k + n * 7, ?_⟩
    rw [hk]
    unfold PRICE_GAB_UNIT
    push_cast
    ring

theorem gabParts_nat (a : List Char) : ∃ k : ℕ, (gabParts a).1 = (k : ℚ) := by
  have h := gabFold_nat (gabScanList a) 0 ⟨0, by norm_num⟩
  exact h

theorem barePart_nat (a : List Char) : ∃ k : ℕ, (barePart a).1 = (k : ℚ) := by
  unfold barePart
  by_cases h : (searchWB ['г', 'а', 'б'] none a && !hasNumGab a) = true
  · exact ⟨7, by rw [if_pos h]; norm_num [PRICE_GAB_UNIT]⟩
  · exact ⟨0, by rw [if_neg h]; norm_num⟩

/-- The pre-rounding earnings sum is always a natural number: every
price in the table is an integer. -/
theorem rawEarn_nat (tl : List Char) : ∃ k : ℕ, rawEarnCore tl = (k : ℚ) := by
  unfold rawEarnCore
  by_cases h : subl ['+'] tl = true
  · rw [if_neg (by simp [h])]
    obtain ⟨k1, h1⟩ := basePart_nat tl
    obtain ⟨k2, h2⟩ := mkPart_nat (afterPlus tl)
    obtain ⟨k3, h3⟩ := colorParts_nat (afterPlus tl)
    obtain ⟨k4, h4⟩ := gabParts_nat (afterPlus tl)
    obtain ⟨k5, h5⟩ := barePart_nat (afterPlus tl)
    refine ⟨k1 + k2 + k3 + k4 + k5, ?_⟩
    show (basePart tl).1 + (mkPart (afterPlus tl)).1 + (colorParts (afterPlus tl)).1
        + (gabParts (afterPlus tl)).1 + (barePart (afterPlus tl)).1 = _
    rw [h1, h2, h3, h4, h5]
    push_cast
    ring
  · rw [if_pos (by simp [h])]
    exact ⟨0, by norm_num⟩

/-- The returned amount is exactly the Python `round` of the raw sum. -/
theorem compute1_eq_round_raw (tl : List Char) :
    (compute_earn_core tl).1 = pyRound2 (rawEarnCore tl) := by
  unfold compute_earn_core rawEarnCore
  by_cases h : subl ['+'] tl = true
  · simp [h]
  · simp [h, pyRound2_zero]

/-! ## Float rounding lemmas -/

theorem rne_intCast (z : ℤ) : rne ((z : ℤ) : ℚ) = z := by
  unfold rne
  rw [Int.floor_intCast]
  norm_num

theorem rne_eq_of (m : ℚ) (n : ℤ) (h1 : ⌊m⌋ = n) (h2 : m - (n : ℚ) < 1 / 2) :
    rne m = n := by
  unfold rne
  rw [h1, if_pos h2]

theorem intLog2_eq (q : ℚ) (e : ℤ) (h0 : 0 < q) (h1 : (2 : ℚ) ^ e ≤ q)
    (h2 : q < (2 : ℚ) ^ (e + 1)) : Int.log 2 q = e := by
  have hb : (1 : ℕ) < 2 := by norm_num
  have hc : ((2 : ℕ) : ℚ) = (2 : ℚ) := by norm_num
  have ha : e ≤ Int.log 2 q := by
    rw [← Int.zpow_le_iff_le_log hb h0, hc]
    exact h1
  have hbnd : Int.log 2 q < e + 1 := by
    rw [← Int.lt_zpow_iff_log_lt hb h0, hc]
    exact h2
  omega

theorem fl_eq_of (q : ℚ) (e n : ℤ) (h0 : 0 < q) (h1 : (2 : ℚ) ^ e ≤ q)
    (h2 : q < (2 : ℚ) ^ (e + 1)) (h3 : rne (q / 2 ^ (e - 52)) = n) :
    fl q = (n : ℚ) * 2 ^ (e - 52) := by
  unfold fl
  rw [if_neg (ne_of_gt h0), if_pos h0, intLog2_eq q e h0 h1 h2, h3]

theorem fl_exact_of (q : ℚ) (e m : ℤ) (h0 : 0 < q) (h1 : (2 : ℚ) ^ e ≤ q)
    (h2 : q < (2 : ℚ) ^ (e + 1)) (hm : q / 2 ^ (e - 52) = (m : ℚ)) : fl q = q := by
  have h3 : rne (q / 2 ^ (e - 52)) = m := by rw [hm, rne_intCast]
  rw [fl_eq_of q e m h0 h1 h2 h3, ← hm]
  exact div_mul_cancel₀ q (zpow_ne_zero _ two_ne_zero)

theorem fl_zero : fl 0 = 0 := by
  unfold fl
  rw [if_pos rfl]

/-- Rounding to double is exact on natural numbers up to `2^53`. -/
theorem fl_natCast_le (k : ℕ) (h : (k : ℚ) ≤ 2 ^ 53) : fl (k : ℚ) = k := by
  rcases Nat.eq_zero_or_pos k with hk | hk
  · subst hk
    simpa using fl_zero
  have h0 : (0 : ℚ) < k := by exact_mod_cast hk
  set e := Int.log 2 (k : ℚ) with he
  have hb : (1 : ℕ) < 2 := by norm_num
  have hc : ((2 : ℕ) : ℚ) = (2 : ℚ) := by norm_num
  have h1 : (2 : ℚ) ^ e ≤ (k : ℚ) := by
    have hx := Int.zpow_log_le_self hb h0
    rwa [hc] at hx
  have h2 : (k : ℚ) < (2 : ℚ) ^ (e + 1) := by
    have hx := Int.lt_zpow_succ_log_self hb (k : ℚ)
    rwa [hc] at hx
  have he0 : 0 ≤ e := by
    rw [he, ← Int.zpow_le_iff_le_log hb h0, hc, zpow_zero]
    exact_mod_cast hk
  have he53 : e ≤ 53 := by
    by_contra hcon
    push_neg at hcon
    have h54 : (2 : ℚ) ^ (54 : ℤ) ≤ (2 : ℚ) ^ e := by
      apply zpow_le_zpow_right₀ (by norm_num)
      omega
    have hx : (2 : ℚ) ^ (54 : ℤ) ≤ 2 ^ 53 := le_trans (le_trans h54 h1) h
    norm_num at hx
  by_cases he52 : e ≤ 52
  · refine fl_exact_of (k : ℚ) e ((k : ℤ) * 2 ^ (52 - e).toNat) h0 h1 h2 ?_
    have hpow : (2 : ℚ) ^ (e - 52) = ((2 : ℚ) ^ ((52 - e).toNat)) ⁻¹ := by
      rw [← zpow_natCast (2 : ℚ) (52 - e).toNat, Int.toNat_of_nonneg (by omega),
        ← zpow_neg]
      congr 1
      omega
    rw [hpow, div_eq_mul_inv, inv_inv]
    push_cast
    ring
  · have he' : e = 53 := by omega
    have hk53 : (k : ℚ) = 2 ^ 53 := by
      apply le_antisymm h
      have hx := h1
      rw [he', show ((53 : ℤ)) = ((53 : ℕ) : ℤ) by norm_num, zpow_natCast] at hx
      exact hx
    refine fl_exact_of (k : ℚ) e ((2 : ℤ) ^ 52) h0 h1 h2 ?_
    rw [hk53, he']
    push_cast
    norm_num

/-! ## Lemmas for the `габ` spellings -/

theorem gabScan_frag_sp (L : List Char) :
    gabScanList ('3' :: ' ' :: 'г' :: 'а' :: 'б' :: L) = 3 :: gabScanList L := by
  rw [gabScanList]
  rfl

theorem gabScan_frag_st (L : List Char) :
    gabScanList ('3' :: '*' :: 'г' :: 'а' :: 'б' :: L) = 3 :: gabScanList L := by
  rw [gabScanList]
  rfl

theorem gabScan_frag_no (L : List Char) :
    gabScanList ('3' :: 'г' :: 'а' :: 'б' :: L) = 3 :: gabScanList L := by
  rw [gabScanList]
  rfl

theorem gabScanList_nil : gabScanList [] = [] := by
  rw [gabScanList]

theorem gabScanList_cons_of_match (c : Char) (cs : List Char) (n len : Nat)
    (hm : matchGabAt (c :: cs) = some (n, len)) :
    gabScanList (c :: cs) = n :: gabScanList (cs.drop (len - 1)) := by
  rw [gabScanList, hm]

theorem gabScanList_cons_of_none (c : Char) (cs : List Char)
    (hm : matchGabAt (c :: cs) = none) :
    gabScanList (c :: cs) = gabScanList cs := by
  rw [gabScanList, hm]

theorem barePart_of_numGab (a : List Char) (h : hasNumGab a = true) :
    barePart a = (0, []) := by
  unfold barePart
  rw [h]
  simp

theorem bare_frag_sp (L : List Char) :
    barePart ('3' :: ' ' :: 'г' :: 'а' :: 'б' :: L) = (0, []) :=
  barePart_of_numGab _ rfl

theorem bare_frag_st (L : List Char) :
    barePart ('3' :: '*' :: 'г' :: 'а' :: 'б' :: L) = (0, []) :=
  barePart_of_numGab _ rfl

theorem bare_frag_no (L : List Char) :
    barePart ('3' :: 'г' :: 'а' :: 'б' :: L) = (0, []) :=
  barePart_of_numGab _ rfl

/-- The parse result depends only on the five scanned components. -/
theorem compute_core_congr (tl1 tl2 : List Char)
    (h0 : subl ['+'] tl1 = subl ['+'] tl2)
    (h1 : basePart tl1 = basePart tl2)
    (h2 : mkPart (afterPlus tl1) = mkPart (afterPlus tl2))
    (h3 : colorParts (afterPlus tl1) = colorParts (afterPlus tl2))
    (h4 : gabParts (afterPlus tl1) = gabParts (afterPlus tl2))
    (h5 : barePart (afterPlus tl1) = barePart (afterPlus tl2)) :
    compute_earn_core tl1 = compute_earn_core tl2 := by
  unfold compute_earn_core
  rw [h0, h1, h2, h3, h4, h5]

theorem gabParts_frag_eq1 (L : List Char) :
    gabParts ('3' :: ' ' :: 'г' :: 'а' :: 'б' :: L)
      = gabParts ('3' :: '*' :: 'г' :: 'а' :: 'б' :: L) := by
  unfold gabParts
  rw [gabScan_frag_sp, gabScan_frag_st]

theorem gabParts_frag_eq2 (L : List Char) :
    gabParts ('3' :: '*' :: 'г' :: 'а' :: 'б' :: L)
      = gabParts ('3' :: 'г' :: 'а' :: 'б' :: L) := by
  unfold gabParts
  rw [gabScan_frag_st, gabScan_frag_no]

/-- The three spellings of `3габ` parse identically in any context
after the leading `+`. -/
theorem c5pair1 (L : List Char) :
    compute_earn_core ('+' :: '3' :: ' ' :: 'г' :: 'а' :: 'б' :: L)
      = compute_earn_core ('+' :: '3' :: '*' :: 'г' :: 'а' :: 'б' :: L) :=
  compute_core_congr _ _ rfl rfl rfl rfl (gabParts_frag_eq1 L)
    (by rw [show afterPlus ('+' :: '3' :: ' ' :: 'г' :: 'а' :: 'б' :: L)
          = '3' :: ' ' :: 'г' :: 'а' :: 'б' :: L from rfl,
        show afterPlus ('+' :: '3' :: '*' :: 'г' :: 'а' :: 'б' :: L)
          = '3' :: '*' :: 'г' :: 'а' :: 'б' :: L from rfl,
        bare_frag_sp, bare_frag_st])

theorem c5pair2 (L : List Char) :
    compute_earn_core ('+' :: '3' :: '*' :: 'г' :: 'а' :: 'б' :: L)
      = compute_earn_core ('+' :: '3' :: 'г' :: 'а' :: 'б' :: L) :=
  compute_core_congr _ _ rfl rfl rfl rfl (gabParts_frag_eq2 L)
    (by rw [show afterPlus ('+' :: '3' :: '*' :: 'г' :: 'а' :: 'б' :: L)
          = '3' :: '*' :: 'г' :: 'а' :: 'б' :: L from rfl,
        show afterPlus ('+' :: '3' :: 'г' :: 'а' :: 'б' :: L)
          = '3' :: 'г' :: 'а' :: 'б' :: L from rfl,
        bare_frag_st, bare_frag_no])

theorem gabFold_shift (ns : List Nat) : ∀ acc : ℚ,
    List.foldl (fun (acc : ℚ) (n : Nat) => acc + (n : ℚ) * PRICE_GAB_UNIT) acc ns
      = acc
        + List.foldl (fun (acc : ℚ) (n : Nat) => acc + (n : ℚ) * PRICE_GAB_UNIT) 0 ns := by
  induction ns with
  | nil => intro acc; simp
  | cons n t ih =>
    intro acc
    rw [List.foldl_cons, List.foldl_cons, ih (acc + (n : ℚ) * PRICE_GAB_UNIT),
      ih (0 + (n : ℚ) * PRICE_GAB_UNIT)]
    ring

/-- A `3габ` occurrence contributes exactly three unit prices. -/
theorem gabParts_frag_amount (L : List Char) :
    (gabParts ('3' :: 'г' :: 'а' :: 'б' :: L)).1
      = 3 * PRICE_GAB_UNIT + (gabParts L).1 := by
  simp only [gabParts, gabScan_frag_no]
  rw [List.foldl_cons, gabFold_shift]
  ring

theorem memBasePart (tl : List Char) (s : String) (h : s ∈ (basePart tl).2) :
    s = "++" ∨ s = "+" := by
  unfold basePart at h
  by_cases hb : subl ['+', '+'] tl = true
  · rw [if_pos hb] at h
    exact Or.inl (by simpa using h)
  · rw [if_neg hb] at h
    exact Or.inr (by simpa using h)

/-- Whenever a numeric `габ` pattern occurs after the first `+`, the
bare-word trigger is absent from the parse. -/
theorem gab_not_in_triggers (text : String)
    (h : hasNumGab (afterPlus (pyLower text.data)) = true) :
    "габ" ∉ (compute_earn_from_text text).2 := by
  intro hmem
  unfold compute_earn_from_text compute_earn_core at hmem
  by_cases hp : subl ['+'] (pyLower text.data) = true
  · rw [hp] at hmem
    simp only [Bool.not_true, Bool.false_eq_true, if_false] at hmem
    rcases List.mem_append.mp hmem with h1 | hbare
    · rcases List.mem_append.mp h1 with h2 | hgab
      · rcases List.mem_append.mp h2 with h3 | hcol
        · rcases List.mem_append.mp h3 with hb | hmk
          · rcases memBasePart _ _ hb with h4 | h4 <;> exact absurd h4 (by decide)
          · exact absurd (memMkPart _ _ hmk) (by decide)
        · have h4 := memColorParts _ _ hcol
          simp only [COLORS] at h4
          exact absurd h4 (by decide)
      · obtain ⟨n, hn⟩ := memGabParts _ _ hgab
        have hlen := congrArg String.length hn
        rw [String.length_append] at hlen
        have h3 : ("габ" : String).length = 3 := by decide
        have h4 := toString_nat_length_pos n
        omega
    · rw [barePart_of_numGab _ h] at hbare
      simp at hbare
  · rw [if_pos (by simp [hp])] at hmem
    simp at hmem

theorem hasNumGab_of_sub2 (a : List Char)
    (h : subl ['2', 'г', 'а', 'б'] a = true) : hasNumGab a = true := by
  induction a with
  | nil => simp [subl, isPrefC] at h
  | cons c cs ih =>
    rw [subl] at h
    rcases Bool.or_eq_true_iff.mp h with h1 | h2
    · cases cs with
      | nil => simp [isPrefC] at h1
      | cons d cs2 =>
        cases cs2 with
        | nil => simp [isPrefC] at h1
        | cons e cs3 =>
          cases cs3 with
          | nil => simp [isPrefC] at h1
          | cons f cs4 =>
            simp only [isPrefC, Bool.and_eq_true, beq_iff_eq] at h1
            obtain ⟨hc, hd, he, hf, -⟩ := h1
            subst hc
            subst hd
            subst he
            subst hf
            rfl
    · rw [hasNumGab, ih h2, Bool.or_true]

/-- The trigger `3габ` is reported for a `3габ` occurrence right after
the `+`. -/
theorem mem3gab (L : List Char) :
    "3габ" ∈ (compute_earn_core ('+' :: '3' :: 'г' :: 'а' :: 'б' :: L)).2 := by
  have hp : subl ['+'] ('+' :: '3' :: 'г' :: 'а' :: 'б' :: L) = true := rfl
  unfold compute_earn_core
  rw [hp]
  simp only [Bool.not_true, Bool.false_eq_true, if_false]
  apply List.mem_append_left
  apply List.mem_append_right
  rw [show afterPlus ('+' :: '3' :: 'г' :: 'а' :: 'б' :: L)
      = '3' :: 'г' :: 'а' :: 'б' :: L from rfl]
  simp only [gabParts, gabScan_frag_no, List.map_cons]
  exact List.mem_cons.mpr (Or.inl (by decide))

/-! ## The float accumulation agrees with the exact sum below 2^53 -/

theorem COLORS_nat : ∀ p ∈ COLORS, ∃ k : ℕ, p.2 = (k : ℚ) := by
  intro p hp
  simp only [COLORS, List.mem_cons, List.not_mem_nil, or_false] at hp
  rcases hp with rfl | rfl | rfl | rfl | rfl | rfl | rfl | rfl | rfl <;>
    exact nat_of_den_one _ (by decide) (by decide)

theorem colFoldQ_cons (a : List Char) (cp : String × ℚ) (t : List (String × ℚ))
    (acc : ℚ) :
    colFoldQ a (cp :: t) acc
      = colFoldQ a t (if subl cp.1.data a then acc + cp.2 else acc) := rfl

theorem flColorFold_cons (a : List Char) (cp : String × ℚ) (t : List (String × ℚ))
    (acc : ℚ) :
    flColorFold a (cp :: t) acc
      = flColorFold a t (if subl cp.1.data a then fladd acc cp.2 else acc) := rfl

theorem colorParts_fst (a : List Char) :
    ∀ (cl : List (String × ℚ)) (acc : ℚ × List String),
      (cl.foldl
        (fun acc cp =>
          if subl cp.1.data a then (acc.1 + cp.2, acc.2 ++ [cp.1]) else acc) acc).1
        = colFoldQ a cl acc.1 := by
  intro cl
  induction cl with
  | nil => intro acc; rfl
  | cons cp t ih =>
    intro acc
    rw [List.foldl_cons, colFoldQ_cons]
    by_cases hc : subl cp.1.data a = true
    · rw [if_pos hc, if_pos hc]
      exact ih _
    · rw [if_neg hc, if_neg hc]
      exact ih _

theorem colFoldQ_shift (a : List Char) (cl : List (String × ℚ)) :
    ∀ acc : ℚ, colFoldQ a cl acc = acc + colFoldQ a cl 0 := by
  induction cl with
  | nil => intro acc; show acc = acc + 0; ring
  | cons cp t ih =>
    intro acc
    rw [colFoldQ_cons, colFoldQ_cons]
    by_cases hc : subl cp.1.data a = true
    · rw [if_pos hc, if_pos hc, ih (acc + cp.2), ih (0 + cp.2)]
      ring
    · rw [if_neg hc, if_neg hc, ih acc]

theorem colFoldQ_nat (a : List Char) (cl : List (String × ℚ))
    (hcl : ∀ p ∈ cl, ∃ k : ℕ, p.2 = (k : ℚ)) :
    ∃ m : ℕ, colFoldQ a cl 0 = (m : ℚ) := by
  induction cl with
  | nil => exact ⟨0, rfl⟩
  | cons cp t ih =>
    obtain ⟨m, hm⟩ := ih (fun p hp => hcl p (List.mem_cons_of_mem _ hp))
    obtain ⟨kp, hkp⟩ := hcl cp (List.mem_cons_self _ _)
    rw [colFoldQ_cons]
    by_cases hc : subl cp.1.data a = true
    · rw [if_pos hc, colFoldQ_shift, hm, hkp]
      exact ⟨kp + m, by push_cast; ring⟩
    · rw [if_neg hc]
      exact ⟨m, hm⟩

theorem flColorFold_eq (a : List Char) (cl : List (String × ℚ))
    (hcl : ∀ p ∈ cl, ∃ k : ℕ, p.2 = (k : ℚ)) :
    ∀ k : ℕ, ((k : ℚ) + colFoldQ a cl 0 ≤ 2 ^ 53) →
      flColorFold a cl (k : ℚ) = (k : ℚ) + colFoldQ a cl 0 := by
  induction cl with
  | nil =>
    intro k _
    show (k : ℚ) = (k : ℚ) + 0
    ring
  | cons cp t ih =>
    intro k hk
    obtain ⟨kp, hkp⟩ := hcl cp (List.mem_cons_self _ _)
    obtain ⟨m, hm⟩ := colFoldQ_nat a t (fun p hp => hcl p (List.mem_cons_of_mem _ hp))
    by_cases hc : subl cp.1.data a = true
    · have hsum : colFoldQ a (cp :: t) 0 = cp.2 + colFoldQ a t 0 := by
        rw [colFoldQ_cons, if_pos hc, colFoldQ_shift]
        ring
      have hb : ((k + kp : ℕ) : ℚ) ≤ 2 ^ 53 := by
        rw [hsum, hkp, hm] at hk
        push_cast at hk ⊢
        linarith [Nat.cast_nonneg (α := ℚ) m]
      have hstep : fladd (k : ℚ) cp.2 = ((k + kp : ℕ) : ℚ) := by
        unfold fladd
        rw [hkp, show (k : ℚ) + (kp : ℚ) = ((k + kp : ℕ) : ℚ) by push_cast; ring]
        exact fl_natCast_le _ hb
      rw [flColorFold_cons, if_pos hc, hstep]
      rw [ih (fun p hp => hcl p (List.mem_cons_of_mem _ hp)) (k + kp)
        (by rw [hsum, hkp] at hk; push_cast at hk ⊢; linarith)]
      rw [hsum, hkp]
      push_cast
      ring
    · have hsum : colFoldQ a (cp :: t) 0 = colFoldQ a t 0 := by
        rw [colFoldQ_cons, if_neg hc]
      rw [flColorFold_cons, if_neg hc]
      rw [ih (fun p hp => hcl p (List.mem_cons_of_mem _ hp)) k
        (by rw [hsum] at hk; exact hk)]
      rw [hsum]


theorem flGabFold_cons (acc : ℚ) (n : Nat) (t : List Nat) :
    flGabFold acc (n :: t)
      = flGabFold (fladd acc (flmul (fl (n : ℚ)) PRICE_GAB_UNIT)) t := rfl

theorem gabParts_fst (a : List Char) :
    (gabParts a).1
      = List.foldl (fun (acc : ℚ) (n : ℕ) => acc + (n : ℚ) * PRICE_GAB_UNIT) 0
          (gabScanList a) := rfl

theorem flGabFold_eq (ns : List Nat) :
    ∀ k : ℕ,
      ((k : ℚ)
          + List.foldl (fun (acc : ℚ) (n : ℕ) => acc + (n : ℚ) * PRICE_GAB_UNIT) 0 ns
        ≤ 2 ^ 53) →
      flGabFold (k : ℚ) ns
        = (k : ℚ)
          + List.foldl (fun (acc : ℚ) (n : ℕ) => acc + (n : ℚ) * PRICE_GAB_UNIT) 0 ns := by
  induction ns with
  | nil =>
    intro k _
    show (k : ℚ) = (k : ℚ) + 0
    ring
  | cons n t ih =>
    intro k hk
    obtain ⟨m, hm⟩ := gabFold_nat t 0 ⟨0, by norm_num⟩
    have h7 : ((n : ℚ) * PRICE_GAB_UNIT) = ((n * 7 : ℕ) : ℚ) := by
      unfold PRICE_GAB_UNIT
      push_cast
      ring
    have hsum :
        List.foldl (fun (acc : ℚ) (n : ℕ) => acc + (n : ℚ) * PRICE_GAB_UNIT) 0 (n :: t)
          = (n : ℚ) * PRICE_GAB_UNIT
            + List.foldl (fun (acc : ℚ) (n : ℕ) => acc + (n : ℚ) * PRICE_GAB_UNIT) 0 t := by
      rw [List.foldl_cons, gabFold_shift]
      ring
    have hb : ((k + n * 7 : ℕ) : ℚ) ≤ 2 ^ 53 := by
      rw [hsum, h7, hm] at hk
      push_cast at hk ⊢
      linarith [Nat.cast_nonneg (α := ℚ) m]
    have hb7 : ((n * 7 : ℕ) : ℚ) ≤ 2 ^ 53 := by
      push_cast at hb ⊢
      linarith [Nat.cast_nonneg (α := ℚ) k]
    have hn : ((n : ℕ) : ℚ) ≤ 2 ^ 53 := by
      push_cast at hb7 ⊢
      linarith [Nat.cast_nonneg (α := ℚ) n]
    have hmul : flmul (fl (n : ℚ)) PRICE_GAB_UNIT = ((n * 7 : ℕ) : ℚ) := by
      unfold flmul
      rw [fl_natCast_le n hn, h7]
      exact fl_natCast_le _ hb7
    have hadd : fladd (k : ℚ) ((n * 7 : ℕ) : ℚ) = ((k + n * 7 : ℕ) : ℚ) := by
      unfold fladd
      rw [show (k : ℚ) + ((n * 7 : ℕ) : ℚ) = ((k + n * 7 : ℕ) : ℚ) by push_cast; ring]
      exact fl_natCast_le _ hb
    rw [flGabFold_cons, hmul, hadd]
    rw [ih (k + n * 7) (by rw [hsum, h7] at hk; push_cast at hk ⊢; linarith)]
    rw [hsum, h7]
    push_cast
    ring

theorem flStage1_eq (tl : List Char) : flStage1 tl = (basePart tl).1 := by
  unfold flStage1 basePart
  by_cases hb : subl ['+', '+'] tl = true
  · rw [if_pos hb, if_pos hb]
    show fladd 0 (flmul PRICE_BASE 2) = PRICE_BASE * 2
    have h1 : flmul PRICE_BASE 2 = ((20 : ℕ) : ℚ) := by
      unfold flmul
      rw [show PRICE_BASE * (2 : ℚ) = ((20 : ℕ) : ℚ) by norm_num [PRICE_BASE]]
      exact fl_natCast_le _ (by norm_num)
    rw [h1]
    unfold fladd
    rw [zero_add, fl_natCast_le _ (by norm_num)]
    norm_num [PRICE_BASE]
  · rw [if_neg hb, if_neg hb]
    show fladd 0 PRICE_BASE = PRICE_BASE
    unfold fladd
    rw [zero_add, show PRICE_BASE = ((10 : ℕ) : ℚ) by norm_num [PRICE_BASE]]
    exact fl_natCast_le _ (by norm_num)

theorem flStage2_eq (tl : List Char) :
    flStage2 tl = (basePart tl).1 + (mkPart (afterPlus tl)).1 := by
  unfold flStage2
  by_cases hm : searchWB ['м', 'к'] none (afterPlus tl) = true
  · rw [if_pos hm, flStage1_eq]
    have hmk : (mkPart (afterPlus tl)).1 = PRICE_MK := by
      unfold mkPart
      rw [if_pos hm]
    rw [hmk]
    unfold basePart
    by_cases hb : subl ['+', '+'] tl = true
    · rw [if_pos hb]
      show fladd (PRICE_BASE * 2) PRICE_MK = PRICE_BASE * 2 + PRICE_MK
      unfold fladd
      rw [show PRICE_BASE * 2 + PRICE_MK = ((25 : ℕ) : ℚ) by norm_num [PRICE_BASE, PRICE_MK]]
      exact fl_natCast_le _ (by norm_num)
    · rw [if_neg hb]
      show fladd PRICE_BASE PRICE_MK = PRICE_BASE + PRICE_MK
      unfold fladd
      rw [show PRICE_BASE + PRICE_MK = ((15 : ℕ) : ℚ) by norm_num [PRICE_BASE, PRICE_MK]]
      exact fl_natCast_le _ (by norm_num)
  · rw [if_neg hm, flStage1_eq]
    have hmk : (mkPart (afterPlus tl)).1 = 0 := by
      unfold mkPart
      rw [if_neg hm]
    rw [hmk, add_zero]

theorem flStage3_eq (tl : List Char)
    (hbound : (basePart tl).1 + (mkPart (afterPlus tl)).1
        + (colorParts (afterPlus tl)).1 ≤ 2 ^ 53) :
    flStage3 tl = (basePart tl).1 + (mkPart (afterPlus tl)).1
      + (colorParts (afterPlus tl)).1 := by
  obtain ⟨kb, hkb⟩ := basePart_nat tl
  obtain ⟨km, hkm⟩ := mkPart_nat (afterPlus tl)
  have h2 : flStage2 tl = ((kb + km : ℕ) : ℚ) := by
    rw [flStage2_eq, hkb, hkm]
    push_cast
    ring
  have hcp : (colorParts (afterPlus tl)).1 = colFoldQ (afterPlus tl) COLORS 0 := by
    unfold colorParts
    exact colorParts_fst _ COLORS (0, [])
  have hcb : ((kb + km : ℕ) : ℚ) + colFoldQ (afterPlus tl) COLORS 0 ≤ 2 ^ 53 := by
    rw [← hcp]
    rw [hkb, hkm] at hbound
    push_cast at hbound ⊢
    linarith
  unfold flStage3
  rw [h2, flColorFold_eq (afterPlus tl) COLORS COLORS_nat (kb + km) hcb, ← hcp,
    hkb, hkm]
  push_cast
  ring

theorem flStage4_eq (tl : List Char)
    (hbound : (basePart tl).1 + (mkPart (afterPlus tl)).1
        + (colorParts (afterPlus tl)).1 + (gabParts (afterPlus tl)).1 ≤ 2 ^ 53) :
    flStage4 tl = (basePart tl).1 + (mkPart (afterPlus tl)).1
      + (colorParts (afterPlus tl)).1 + (gabParts (afterPlus tl)).1 := by
  obtain ⟨kb, hkb⟩ := basePart_nat tl
  obtain ⟨km, hkm⟩ := mkPart_nat (afterPlus tl)
  obtain ⟨kc, hkc⟩ := colorParts_nat (afterPlus tl)
  obtain ⟨kg, hkg⟩ := gabParts_nat (afterPlus tl)
  have hbound3 : (basePart tl).1 + (mkPart (afterPlus tl)).1
      + (colorParts (afterPlus tl)).1 ≤ 2 ^ 53 := by
    rw [hkb, hkm, hkc] at hbound ⊢
    rw [hkg] at hbound
    linarith [Nat.cast_nonneg (α := ℚ) kg]
  have h3 : flStage3 tl = ((kb + km + kc : ℕ) : ℚ) := by
    rw [flStage3_eq tl hbound3, hkb, hkm, hkc]
    push_cast
    ring
  have hgb : ((kb + km + kc : ℕ) : ℚ)
      + List.foldl (fun (acc : ℚ) (n : ℕ) => acc + (n : ℚ) * PRICE_GAB_UNIT) 0
          (gabScanList (afterPlus tl)) ≤ 2 ^ 53 := by
    rw [← gabParts_fst]
    rw [hkb, hkm, hkc, hkg] at hbound
    rw [hkg]
    push_cast at hbound ⊢
    linarith
  unfold flStage4
  rw [h3, flGabFold_eq (gabScanList (afterPlus tl)) (kb + km + kc) hgb,
    ← gabParts_fst, hkb, hkm, hkc]
  push_cast
  ring

theorem floatEarn_eq_raw (tl : List Char) (h : rawEarnCore tl ≤ 2 ^ 53) :
    floatEarnCore tl = rawEarnCore tl := by
  by_cases hp : subl ['+'] tl = true
  · have hraw : rawEarnCore tl = (basePart tl).1 + (mkPart (afterPlus tl)).1
        + (colorParts (afterPlus tl)).1 + (gabParts (afterPlus tl)).1
        + (barePart (afterPlus tl)).1 := by
      unfold rawEarnCore
      rw [if_neg (by simp [hp])]
    obtain ⟨kb, hkb⟩ := basePart_nat tl
    obtain ⟨km, hkm⟩ := mkPart_nat (afterPlus tl)
    obtain ⟨kc, hkc⟩ := colorParts_nat (afterPlus tl)
    obtain ⟨kg, hkg⟩ := gabParts_nat (afterPlus tl)
    obtain ⟨ks, hks⟩ := barePart_nat (afterPlus tl)
    have hB : ((kb + km + kc + kg + ks : ℕ) : ℚ) ≤ 2 ^ 53 := by
      rw [hraw, hkb, hkm, hkc, hkg, hks] at h
      push_cast at h ⊢
      linarith
    have hbound4 : (basePart tl).1 + (mkPart (afterPlus tl)).1
        + (colorParts (afterPlus tl)).1 + (gabParts (afterPlus tl)).1 ≤ 2 ^ 53 := by
      rw [hkb, hkm, hkc, hkg]
      push_cast at hB ⊢
      linarith [Nat.cast_nonneg (α := ℚ) ks]
    have h4 : flStage4 tl = ((kb + km + kc + kg : ℕ) : ℚ) := by
      rw [flStage4_eq tl hbound4, hkb, hkm, hkc, hkg]
      push_cast
      ring
    unfold floatEarnCore
    rw [if_neg (by simp [hp])]
    by_cases hbare : (searchWB ['г', 'а', 'б'] none (afterPlus tl)
        && !hasNumGab (afterPlus tl)) = true
    · rw [if_pos hbare]
      have hbp : (barePart (afterPlus tl)).1 = PRICE_GAB_UNIT := by
        unfold barePart
        rw [if_pos hbare]
      have hks7 : ks = 7 := by
        have hx := hks
        rw [hbp] at hx
        have h7 : ((7 : ℕ) : ℚ) = PRICE_GAB_UNIT := by unfold PRICE_GAB_UNIT; norm_num
        rw [← h7] at hx
        exact_mod_cast hx.symm
      subst hks7
      have hadd : fladd ((kb + km + kc + kg : ℕ) : ℚ) PRICE_GAB_UNIT
          = ((kb + km + kc + kg + 7 : ℕ) : ℚ) := by
        unfold fladd
        rw [show ((kb + km + kc + kg : ℕ) : ℚ) + PRICE_GAB_UNIT
            = ((kb + km + kc + kg + 7 : ℕ) : ℚ) by unfold PRICE_GAB_UNIT; push_cast; ring]
        exact fl_natCast_le _ hB
      rw [h4, hadd, hraw, hkb, hkm, hkc, hkg, hks]
      push_cast
      ring
    · rw [if_neg hbare]
      have hbp : (barePart (afterPlus tl)).1 = 0 := by
        unfold barePart
        rw [if_neg hbare]
      rw [h4, hraw, hkb, hkm, hkc, hkg, hbp]
      push_cast
      ring
  · unfold floatEarnCore rawEarnCore
    rw [if_pos (by simp [hp]), if_pos (by simp [hp])]

/-! ## Cash-extractor lemmas -/

theorem searchNum_skip (pre rest : List Char) (h : ∀ c ∈ pre, isDigitC c = false) :
    searchNum (pre ++ rest) = searchNum rest := by
  induction pre with
  | nil => rfl
  | cons c t ih =>
    have hc := h c (List.mem_cons_self _ _)
    rw [List.cons_append]
    simp only [searchNum, hc, Bool.false_eq_true, if_false]
    exact ih (fun d hd => h d (List.mem_cons_of_mem _ hd))

theorem searchNum_none (l : List Char) (h : ∀ c ∈ l, isDigitC c = false) :
    searchNum l = none := by
  have h1 := searchNum_skip l [] h
  rwa [List.append_nil] at h1

theorem subl_plus_pyLower (l : List Char) :
    subl ['+'] (pyLower l) = subl ['+'] l := by
  by_cases h : '+' ∈ l
  · rw [(subl_single_plus l).mpr h, (subl_single_plus (pyLower l)).mpr ?_]
    exact List.mem_map.mpr ⟨'+', h, by decide⟩
  · have h1 : subl ['+'] l = false := by
      rw [← Bool.not_eq_true, subl_single_plus]
      exact h
    have h2 : subl ['+'] (pyLower l) = false := by
      rw [← Bool.not_eq_true, subl_single_plus]
      intro hm
      obtain ⟨a, ha, hal⟩ := List.mem_map.mp hm
      exact h (pyLowerChar_plus.mp hal ▸ ha)
    rw [h1, h2]

end Bot

/-! # The claims -/

/-- C1: the spec's invariant `readyForReport → ¬isOnShift` is violated by
the code.  The `ready_flag` task scheduled by `/close` sets
`ready_for_report` unconditionally five minutes later, and `/open` never
clears the flag, so the trace `/open; /close; /open; timer fires` reaches
a state that is simultaneously on shift and ready for report. -/
theorem c1_ready_invariant_violated :
    (Bot.mrun Bot.minit
        [Bot.Ev.eopen 0, Bot.Ev.eclose 1, Bot.Ev.eopen 2, Bot.Ev.efire]).st.open_ = true ∧
    (Bot.mrun Bot.minit
        [Bot.Ev.eopen 0, Bot.Ev.eclose 1, Bot.Ev.eopen 2, Bot.Ev.efire]).st.ready_for_report
      = true := by
  constructor <;> rfl

/-- C2 counterexample: `/open` is not a no-op on an already open shift.
On a driver who is OPEN with the off-flag set, `cmd_open` clears the
off-flag (and re-records the open time), so the state changes. -/
theorem c2_open_not_noop_when_open :
    (({ open_ := true, off := true, open_time := some 0,
        mode := some Bot.Mode.min } : Bot.DriverSt).open_ = true) ∧
    Bot.cmd_open
        { open_ := true, off := true, open_time := some 0, mode := some Bot.Mode.min } 5
      ≠ { open_ := true, off := true, open_time := some 0, mode := some Bot.Mode.min } := by
  constructor
  · rfl
  · intro h
    exact absurd (congrArg Bot.DriverSt.off h) (by decide)

/-- C2 amended: `/open` acts unconditionally, from any state: it sets
OPEN, records the open time, clears the off-flag, and preserves an
existing notification mode (defaulting a missing one to `min`); it never
touches `ready_for_report` or the close time.  In particular from CLOSED
it behaves exactly as the claim states, but from OPEN it is not a no-op:
it re-records the open time and clears the off-flag. -/
theorem c2_open_unconditional (st : Bot.DriverSt) (now : Nat) :
    (Bot.cmd_open st now).open_ = true ∧
    (Bot.cmd_open st now).open_time = some now ∧
    (Bot.cmd_open st now).off = false ∧
    (∀ m, st.mode = some m → (Bot.cmd_open st now).mode = some m) ∧
    (st.mode = none → (Bot.cmd_open st now).mode = some Bot.Mode.min) ∧
    (Bot.cmd_open st now).ready_for_report = st.ready_for_report ∧
    (Bot.cmd_open st now).close_time = st.close_time := by
  refine ⟨rfl, rfl, rfl, ?_, ?_, rfl, rfl⟩
  · intro m hm
    simp [Bot.cmd_open, hm]
  · intro hm
    simp [Bot.cmd_open, hm]

/-- Witness for C2's amended theorem at a concrete driver in mode
`max`. -/
theorem c2_open_unconditional_witness :
    (Bot.cmd_open { mode := some Bot.Mode.max } 3).mode = some Bot.Mode.max :=
  (c2_open_unconditional { mode := some Bot.Mode.max } 3).2.2.2.1 Bot.Mode.max rfl

/-- C3: `/report` is guarded by three preconditions checked in order
(shift still open, ready flag not yet set, off-flag not set), each unmet
one yielding a distinct refusal and leaving the whole world unchanged; a
successful report resets `ready_for_report`, so an immediate second
`/report` is refused (and changes nothing). -/
theorem c3_report_guards (w : Bot.World) (uid : Nat) :
    ((Bot.getDriver w uid).open_ = true →
       Bot.cmd_report w uid = (Bot.ReportReply.refusedShiftOpen, w)) ∧
    ((Bot.getDriver w uid).open_ = false →
     (Bot.getDriver w uid).ready_for_report = false →
       Bot.cmd_report w uid = (Bot.ReportReply.refusedNotReady, w)) ∧
    ((Bot.getDriver w uid).open_ = false →
     (Bot.getDriver w uid).ready_for_report = true →
     (Bot.getDriver w uid).off = false →
       Bot.cmd_report w uid = (Bot.ReportReply.refusedNotOff, w)) ∧
    (Bot.ReportReply.refusedShiftOpen ≠ Bot.ReportReply.refusedNotReady ∧
     Bot.ReportReply.refusedShiftOpen ≠ Bot.ReportReply.refusedNotOff ∧
     Bot.ReportReply.refusedNotReady ≠ Bot.ReportReply.refusedNotOff) ∧
    (∀ inc cash bal cnt w',
       Bot.cmd_report w uid = (Bot.ReportReply.report inc cash bal cnt, w') →
       (Bot.getDriver w' uid).ready_for_report = false ∧
       Bot.cmd_report w' uid = (Bot.ReportReply.refusedNotReady, w')) := by
  refine ⟨?_, ?_, ?_, ⟨by decide, by decide, by decide⟩, ?_⟩
  · intro h
    simp [Bot.cmd_report, h]
  · intro h1 h2
    simp [Bot.cmd_report, h1, h2]
  · intro h1 h2 h3
    simp [Bot.cmd_report, h1, h2, h3]
  · intro inc cash bal cnt w' h
    by_cases h1 : (Bot.getDriver w uid).open_
    · simp [Bot.cmd_report, h1] at h
    · by_cases h2 : (Bot.getDriver w uid).ready_for_report
      · by_cases h3 : (Bot.getDriver w uid).off
        · unfold Bot.cmd_report at h
          rw [if_neg h1] at h
          rw [if_neg (show ¬(!(Bot.getDriver w uid).ready_for_report) = true by
                simp [h2])] at h
          rw [if_neg (show ¬(!(Bot.getDriver w uid).off) = true by simp [h3])] at h
          injection h with hfst hsnd
          subst hsnd
          refine ⟨?_, ?_⟩
          · rw [Bot.getDriver_putDriver]
          · unfold Bot.cmd_report
            rw [Bot.getDriver_putDriver]
            simp [h1]
        · simp [Bot.cmd_report, h1, h2, h3] at h
      · simp [Bot.cmd_report, h1, h2] at h

/-- Witness for C3 at a concrete world: a driver with an open shift is
refused with the shift-open message. -/
theorem c3_report_guards_witness :
    Bot.cmd_report (Bot.putDriver {} 1 { open_ := true }) 1 =
      (Bot.ReportReply.refusedShiftOpen, Bot.putDriver {} 1 { open_ := true }) :=
  (c3_report_guards (Bot.putDriver {} 1 { open_ := true }) 1).1 (by rfl)

/-- C4 counterexample: a message without `+` in an allowed channel and
thread, sent while the driver's shift is closed, is silently ignored: no
retry prompt is sent, no `PendingCorrection` is recorded, and the world
is unchanged — contradicting the claim, which asserts the correction
flow fires for every such message. -/
theorem c4_closed_shift_message_ignored :
    Bot.ALLOWED.lookup (-1002079167705 : Int) = some 48 ∧
    Bot.subl ['+'] "абв".data = false ∧
    Bot.handle_messages {}
        { chat_id := -1002079167705, thread_id := some 48, from_id := 7,
          message_id := 100, text := "абв", date := 0 } 101 =
      (Bot.HandleOut.ignored, {}) := by
  refine ⟨by decide, by decide, by decide⟩

/-- C4 amended: for every inbound message in an allowed channel/thread
*from a driver whose shift is open* whose text does not contain `+`, the
handler replies with the retry prompt and records a `PendingCorrection`
for that driver referencing the origin message and the prompt message,
and creates no entry.  (Messages from drivers whose shift is closed are
ignored before the `+` check.) -/
theorem c4_correction_prompt (w : Bot.World) (m : Bot.Msg) (pm : Nat) (thr : Int)
    (hall : Bot.ALLOWED.lookup m.chat_id = some thr)
    (hthr : m.thread_id = some thr)
    (hopen : (Bot.getDriver w m.from_id).open_ = true)
    (hplus : Bot.subl ['+'] m.text.data = false) :
    Bot.handle_messages w m pm =
      (Bot.HandleOut.prompt pm,
       Bot.putAwaiting w m.from_id
         { orig_chat := m.chat_id, orig_msg := m.message_id,
           bot_msg := pm, expecting_private := false }) ∧
    (Bot.handle_messages w m pm).2.entries = w.entries ∧
    Bot.getAwaiting (Bot.handle_messages w m pm).2 m.from_id =
      some { orig_chat := m.chat_id, orig_msg := m.message_id,
             bot_msg := pm, expecting_private := false } := by
  have hmain : Bot.handle_messages w m pm =
      (Bot.HandleOut.prompt pm,
       Bot.putAwaiting w m.from_id
         { orig_chat := m.chat_id, orig_msg := m.message_id,
           bot_msg := pm, expecting_private := false }) := by
    simp [Bot.handle_messages, hall, hthr, hopen, hplus]
  refine ⟨hmain, ?_, ?_⟩
  · rw [hmain]
    rfl
  · rw [hmain]
    exact Bot.getAwaiting_putAwaiting w m.from_id _

/-- Witness for C4's amended theorem: a driver with an open shift posts
`абв` (no `+`) in an allowed chat, and the prompt plus correction record
result. -/
theorem c4_correction_prompt_witness :
    Bot.handle_messages (Bot.putDriver {} 7 { open_ := true })
        { chat_id := -1002079167705, thread_id := some 48, from_id := 7,
          message_id := 100, text := "абв", date := 0 } 101 =
      (Bot.HandleOut.prompt 101,
       Bot.putAwaiting (Bot.putDriver {} 7 { open_ := true }) 7
         { orig_chat := -1002079167705, orig_msg := 100,
           bot_msg := 101, expecting_private := false }) :=
  (c4_correction_prompt (Bot.putDriver {} 7 { open_ := true })
      { chat_id := -1002079167705, thread_id := some 48, from_id := 7,
        message_id := 100, text := "абв", date := 0 } 101 48
      (by decide) rfl (by decide) (by decide)).1

/-- C10: a private corrected submission containing `+` from a driver
with an active `PendingCorrection` whose `expecting_private` flag is set
is recorded immediately as a committed entry (`processed = true`, earn
and cash computed synchronously) and the correction is cleared — the
driver's shift state is never consulted; by contrast, the channel
submission path ignores every message from a driver whose shift is
closed and never creates an entry for it. -/
theorem c10_private_bypasses_shift_state :
    (∀ (w : Bot.World) (uid : Nat) (text : String) (now : Nat)
       (info : Bot.Correction),
       Bot.getAwaiting w uid = some info →
       info.expecting_private = true →
       Bot.subl ['+'] text.data = true →
       (Bot.private_handler w uid text now).1 =
           Bot.PrivOut.accepted (Bot.next_entry_id w.entries) ∧
       (Bot.private_handler w uid text now).2.entries =
         w.entries ++
           [{ id := Bot.next_entry_id w.entries, driver_id := uid,
              chat_id := info.orig_chat,
              thread_id := Bot.ALLOWED.lookup info.orig_chat, text := text,
              ts := now, processed := true, accepted_ts := some now,
              earn := (Bot.compute_earn_from_text text).1,
              cash := Bot.parse_cash_from_text text }] ∧
       Bot.getAwaiting (Bot.private_handler w uid text now).2 uid = none) ∧
    (∀ (w : Bot.World) (m : Bot.Msg) (pm : Nat),
       (Bot.getDriver w m.from_id).open_ = false →
       Bot.handle_messages w m pm = (Bot.HandleOut.ignored, w)) := by
  constructor
  · intro w uid text now info hawait hexp hplus
    have hmain : Bot.private_handler w uid text now =
        (Bot.PrivOut.accepted (Bot.next_entry_id w.entries),
         Bot.dropAwaiting
           { w with entries := w.entries ++
              [{ id := Bot.next_entry_id w.entries, driver_id := uid,
                 chat_id := info.orig_chat,
                 thread_id := Bot.ALLOWED.lookup info.orig_chat, text := text,
                 ts := now, processed := true, accepted_ts := some now,
                 earn := (Bot.compute_earn_from_text text).1,
                 cash := Bot.parse_cash_from_text text }] } uid) := by
      simp [Bot.private_handler, hawait, hexp, hplus]
    refine ⟨by rw [hmain], by rw [hmain]; rfl, ?_⟩
    rw [hmain]
    exact Bot.getAwaiting_dropAwaiting _ uid
  · intro w m pm hopen
    cases hl : Bot.ALLOWED.lookup m.chat_id with
    | none => simp [Bot.handle_messages, hl]
    | some thr =>
      by_cases hthr : m.thread_id = some thr
      · simp [Bot.handle_messages, hl, hthr, hopen]
      · simp [Bot.handle_messages, hl, hthr]

/-- Witness for C10: driver 9 whose shift is closed has an
expecting-private correction; the private text `+мк` is committed as
entry 1, while the same driver's channel message is ignored. -/
theorem c10_private_bypasses_shift_state_witness :
    (Bot.private_handler
        (Bot.putAwaiting {} 9
          { orig_chat := -1002079167705, orig_msg := 5, bot_msg := 6,
            expecting_private := true }) 9 "+мк" 8).1 =
      Bot.PrivOut.accepted 1 ∧
    Bot.handle_messages {}
        { chat_id := -1002079167705, thread_id := some 48, from_id := 9,
          message_id := 50, text := "+мк", date := 0 } 51 =
      (Bot.HandleOut.ignored, {}) :=
  ⟨((c10_private_bypasses_shift_state).1
      (Bot.putAwaiting {} 9
        { orig_chat := -1002079167705, orig_msg := 5, bot_msg := 6,
          expecting_private := true }) 9 "+мк" 8
      { orig_chat := -1002079167705, orig_msg := 5, bot_msg := 6,
        expecting_private := true }
      (by decide) rfl (by decide)).1,
   (c10_private_bypasses_shift_state).2 {}
      { chat_id := -1002079167705, thread_id := some 48, from_id := 9,
        message_id := 50, text := "+мк", date := 0 } 51 rfl⟩

/-- C9: for every text not containing the character `+`,
`compute_earn_from_text` returns amount `0` and an empty trigger
list. -/
theorem c9_no_plus_zero (text : String) (h : '+' ∉ text.data) :
    Bot.compute_earn_from_text text = (0, []) := by
  have h1 : Bot.subl ['+'] (Bot.pyLower text.data) = false := by
    rw [Bot.subl_plus_pyLower, ← Bool.not_eq_true, Bot.subl_single_plus]
    exact h
  simp [Bot.compute_earn_from_text, Bot.compute_earn_core, h1]

/-- Witness for C9 on a concrete plus-free text. -/
theorem c9_no_plus_zero_witness :
    '+' ∉ "Минская 12".data ∧
    Bot.compute_earn_from_text "Минская 12" = (0, []) :=
  ⟨by decide, c9_no_plus_zero "Минская 12" (by decide)⟩

/-- C8: for every text containing `+`, the trigger list starts with the
base tag, which is `++` exactly when the text contains the substring
`++` (and `+` otherwise); the amount is the rounded sum of the matching
base fee (double base price for `++`, single otherwise) plus the
modifier contributions; and the trigger list never contains `+` and `++`
together. -/
theorem c8_base_fee (text : String) (h : '+' ∈ text.data) :
    (Bot.compute_earn_from_text text).2
      = (if Bot.subl ['+', '+'] text.data then "++" else "+")
        :: ((Bot.mkPart (Bot.afterPlus (Bot.pyLower text.data))).2
            ++ (Bot.colorParts (Bot.afterPlus (Bot.pyLower text.data))).2
            ++ (Bot.gabParts (Bot.afterPlus (Bot.pyLower text.data))).2
            ++ (Bot.barePart (Bot.afterPlus (Bot.pyLower text.data))).2) ∧
    (Bot.compute_earn_from_text text).1
      = Bot.pyRound2
          ((if Bot.subl ['+', '+'] text.data then Bot.PRICE_BASE * 2 else Bot.PRICE_BASE)
            + (Bot.mkPart (Bot.afterPlus (Bot.pyLower text.data))).1
            + (Bot.colorParts (Bot.afterPlus (Bot.pyLower text.data))).1
            + (Bot.gabParts (Bot.afterPlus (Bot.pyLower text.data))).1
            + (Bot.barePart (Bot.afterPlus (Bot.pyLower text.data))).1) ∧
    ¬("+" ∈ (Bot.compute_earn_from_text text).2 ∧
      "++" ∈ (Bot.compute_earn_from_text text).2) := by
  have hplus : Bot.subl ['+'] (Bot.pyLower text.data) = true := by
    rw [Bot.subl_plus_pyLower, Bot.subl_single_plus]
    exact h
  have hpp : Bot.subl ['+', '+'] (Bot.pyLower text.data)
      = Bot.subl ['+', '+'] text.data := Bot.subl_pp_pyLower text.data
  have hshape2 : (Bot.compute_earn_from_text text).2
      = (Bot.basePart (Bot.pyLower text.data)).2
        ++ ((Bot.mkPart (Bot.afterPlus (Bot.pyLower text.data))).2
            ++ (Bot.colorParts (Bot.afterPlus (Bot.pyLower text.data))).2
            ++ (Bot.gabParts (Bot.afterPlus (Bot.pyLower text.data))).2
            ++ (Bot.barePart (Bot.afterPlus (Bot.pyLower text.data))).2) := by
    simp [Bot.compute_earn_from_text, Bot.compute_earn_core, hplus, List.append_assoc]
  have hbase2 : (Bot.basePart (Bot.pyLower text.data)).2
      = [if Bot.subl ['+', '+'] text.data then "++" else "+"] := by
    unfold Bot.basePart
    rw [hpp]
    by_cases hb : Bot.subl ['+', '+'] text.data = true
    · rw [if_pos hb, if_pos hb]
    · rw [if_neg hb, if_neg hb]
  have hbase1 : (Bot.basePart (Bot.pyLower text.data)).1
      = (if Bot.subl ['+', '+'] text.data then Bot.PRICE_BASE * 2 else Bot.PRICE_BASE) := by
    unfold Bot.basePart
    rw [hpp]
    by_cases hb : Bot.subl ['+', '+'] text.data = true
    · rw [if_pos hb, if_pos hb]
    · rw [if_neg hb, if_neg hb]
  refine ⟨?_, ?_, ?_⟩
  · rw [hshape2, hbase2]
    rfl
  · have hshape1 : (Bot.compute_earn_from_text text).1
        = Bot.pyRound2
            ((Bot.basePart (Bot.pyLower text.data)).1
              + (Bot.mkPart (Bot.afterPlus (Bot.pyLower text.data))).1
              + (Bot.colorParts (Bot.afterPlus (Bot.pyLower text.data))).1
              + (Bot.gabParts (Bot.afterPlus (Bot.pyLower text.data))).1
              + (Bot.barePart (Bot.afterPlus (Bot.pyLower text.data))).1) := by
      simp [Bot.compute_earn_from_text, Bot.compute_earn_core, hplus]
    rw [hshape1, hbase1]
  · rw [hshape2, hbase2]
    rintro ⟨hp, hpp2⟩
    by_cases hb : Bot.subl ['+', '+'] text.data = true
    · rw [if_pos hb] at hp
      rcases List.mem_cons.mp hp with h1 | h1
      · exact absurd h1 (by decide)
      · exact absurd h1 (fun hm => (Bot.memModTriggers_no_plus _ _ hm).1 rfl)
    · rw [if_neg hb] at hpp2
      rcases List.mem_cons.mp hpp2 with h1 | h1
      · exact absurd h1 (by decide)
      · exact absurd h1 (fun hm => (Bot.memModTriggers_no_plus _ _ hm).2 rfl)

/-- Witness for C8 at the concrete text `Ленина 5 ++мк синяя`. -/
theorem c8_base_fee_witness :
    ¬("+" ∈ (Bot.compute_earn_from_text "Ленина 5 ++мк синяя").2 ∧
      "++" ∈ (Bot.compute_earn_from_text "Ленина 5 ++мк синяя").2) :=
  (c8_base_fee "Ленина 5 ++мк синяя" (by decide)).2.2

/-- Counterexample to C7 as stated: on the text `+10000000000000000габ`
the program's double-precision accumulation returns 70000000000000008,
while the exact sum of contributing prices is 70000000000000010 — on
which half-up rounding at two decimals is the identity — so the returned
amount is not the half-up rounding of the sum of contributing prices. -/
theorem c7_float_rounding_counterexample :
    Bot.compute_earn_float "+10000000000000000габ" = 70000000000000008 ∧
    Bot.rawEarnCore (Bot.pyLower "+10000000000000000габ".data)
      = 70000000000000010 ∧
    Bot.halfUp2 (Bot.rawEarnCore (Bot.pyLower "+10000000000000000габ".data))
      = 70000000000000010 ∧
    Bot.compute_earn_float "+10000000000000000габ"
      ≠ Bot.halfUp2 (Bot.rawEarnCore (Bot.pyLower "+10000000000000000габ".data)) := by
  have hap : Bot.afterPlus (Bot.pyLower "+10000000000000000габ".data)
      = '1' :: '0' :: '0' :: '0' :: '0' :: '0' :: '0' :: '0' :: '0' :: '0' :: '0'
        :: '0' :: '0' :: '0' :: '0' :: '0' :: '0' :: 'г' :: 'а' :: 'б' :: [] := rfl
  have hm : Bot.matchGabAt
      ('1' :: '0' :: '0' :: '0' :: '0' :: '0' :: '0' :: '0' :: '0' :: '0' :: '0'
        :: '0' :: '0' :: '0' :: '0' :: '0' :: '0' :: 'г' :: 'а' :: 'б' :: [])
      = some (10000000000000000, 20) := by decide
  have hga : Bot.gabScanList (Bot.afterPlus (Bot.pyLower "+10000000000000000габ".data))
      = [10000000000000000] := by
    rw [hap, Bot.gabScanList_cons_of_match _ _ _ _ hm]
    rw [show List.drop (20 - 1)
        ('0' :: '0' :: '0' :: '0' :: '0' :: '0' :: '0' :: '0' :: '0' :: '0'
          :: '0' :: '0' :: '0' :: '0' :: '0' :: '0' :: 'г' :: 'а' :: 'б' :: [])
        = ([] : List Char) from rfl, Bot.gabScanList_nil]
  have hb : (Bot.basePart (Bot.pyLower "+10000000000000000габ".data)).1
      = Bot.PRICE_BASE := by
    unfold Bot.basePart
    rw [if_neg (by decide)]
  have hmk : (Bot.mkPart (Bot.afterPlus (Bot.pyLower "+10000000000000000габ".data))).1
      = 0 := by
    unfold Bot.mkPart
    rw [if_neg (by decide)]
  have hc : (Bot.colorParts (Bot.afterPlus (Bot.pyLower "+10000000000000000габ".data))).1
      = 0 := rfl
  have hg : (Bot.gabParts (Bot.afterPlus (Bot.pyLower "+10000000000000000габ".data))).1
      = 70000000000000000 := by
    rw [Bot.gabParts_fst, hga, List.foldl_cons, List.foldl_nil]
    norm_num [Bot.PRICE_GAB_UNIT]
  have hbp : (Bot.barePart (Bot.afterPlus (Bot.pyLower "+10000000000000000габ".data))).1
      = 0 := by
    unfold Bot.barePart
    rw [if_neg (by decide)]
  have hraw : Bot.rawEarnCore (Bot.pyLower "+10000000000000000габ".data)
      = 70000000000000010 := by
    unfold Bot.rawEarnCore
    rw [if_neg (by decide), hb, hmk, hc, hg, hbp]
    norm_num [Bot.PRICE_BASE]
  have hhalf : Bot.halfUp2 (Bot.rawEarnCore (Bot.pyLower "+10000000000000000габ".data))
      = 70000000000000010 := by
    rw [hraw,
      show (70000000000000010 : ℚ) = ((70000000000000010 : ℕ) : ℚ) by norm_num,
      Bot.halfUp2_natCast]
  have hs1 : Bot.flStage1 (Bot.pyLower "+10000000000000000габ".data) = 10 := by
    unfold Bot.flStage1
    rw [if_neg (by decide)]
    unfold Bot.fladd
    rw [show (0 : ℚ) + Bot.PRICE_BASE = ((10 : ℕ) : ℚ) by norm_num [Bot.PRICE_BASE],
      Bot.fl_natCast_le 10 (by norm_num)]
    norm_num
  have hs2 : Bot.flStage2 (Bot.pyLower "+10000000000000000габ".data) = 10 := by
    unfold Bot.flStage2
    rw [if_neg (by decide)]
    exact hs1
  have hcf : Bot.flColorFold (Bot.afterPlus (Bot.pyLower "+10000000000000000габ".data))
      Bot.COLORS (Bot.flStage2 (Bot.pyLower "+10000000000000000габ".data))
      = Bot.flStage2 (Bot.pyLower "+10000000000000000габ".data) := rfl
  have hs3 : Bot.flStage3 (Bot.pyLower "+10000000000000000габ".data) = 10 := by
    unfold Bot.flStage3
    rw [hcf, hs2]
  have hfl16 : Bot.fl ((10000000000000000 : ℚ)) = 10000000000000000 :=
    Bot.fl_exact_of 10000000000000000 53 5000000000000000 (by norm_num) (by norm_num)
      (by norm_num) (by norm_num)
  have hflmul : Bot.fl ((70000000000000000 : ℚ)) = 70000000000000000 :=
    Bot.fl_exact_of 70000000000000000 55 8750000000000000 (by norm_num) (by norm_num)
      (by norm_num) (by norm_num)
  have hrne : Bot.rne ((70000000000000010 : ℚ) / 2 ^ ((55 : ℤ) - 52))
      = 8750000000000001 := by
    apply Bot.rne_eq_of
    · rw [Int.floor_eq_iff]
      constructor <;> norm_num
    · norm_num
  have hfladd : Bot.fl ((70000000000000010 : ℚ)) = 70000000000000008 := by
    rw [Bot.fl_eq_of 70000000000000010 55 8750000000000001 (by norm_num) (by norm_num)
      (by norm_num) hrne]
    norm_num
  have hprod : Bot.flmul (Bot.fl ((10000000000000000 : ℕ) : ℚ)) Bot.PRICE_GAB_UNIT
      = 70000000000000000 := by
    rw [show ((10000000000000000 : ℕ) : ℚ) = (10000000000000000 : ℚ) by norm_num,
      hfl16]
    unfold Bot.flmul
    rw [show (10000000000000000 : ℚ) * Bot.PRICE_GAB_UNIT = 70000000000000000
      by norm_num [Bot.PRICE_GAB_UNIT]]
    exact hflmul
  have hstep : Bot.fladd 10 70000000000000000 = 70000000000000008 := by
    unfold Bot.fladd
    rw [show (10 : ℚ) + 70000000000000000 = 70000000000000010 by norm_num]
    exact hfladd
  have hs4 : Bot.flStage4 (Bot.pyLower "+10000000000000000габ".data)
      = 70000000000000008 := by
    unfold Bot.flStage4
    rw [hga, hs3, Bot.flGabFold_cons, hprod, hstep]
    rfl
  have hcore : Bot.floatEarnCore (Bot.pyLower "+10000000000000000габ".data)
      = 70000000000000008 := by
    unfold Bot.floatEarnCore
    rw [if_neg (by decide), if_neg (by decide)]
    exact hs4
  have hcf2 : Bot.compute_earn_float "+10000000000000000габ" = 70000000000000008 := by
    unfold Bot.compute_earn_float
    rw [hcore,
      show (70000000000000008 : ℚ) = ((70000000000000008 : ℕ) : ℚ) by norm_num,
      Bot.pyRound2_natCast]
  refine ⟨hcf2, hraw, hhalf, ?_⟩
  rw [hcf2, hhalf]
  norm_num

/-- C7 (amended): whenever the exact sum of contributing prices is at
most 2^53, every float operation in the accumulation is exact, so the
amount the program returns equals the half-up rounding to two decimal
places of that sum — and since the price table is integer-valued, the
sum is a natural number and the returned amount is the exact sum, in
agreement with the idealized exact-rational model.  For larger sums the
53-bit float additions round and the equality can fail. -/
theorem c7_amount_rounding_in_range (text : String)
    (h : Bot.rawEarnCore (Bot.pyLower text.data) ≤ 2 ^ 53) :
    (∃ k : ℕ, Bot.rawEarnCore (Bot.pyLower text.data) = (k : ℚ)) ∧
    Bot.compute_earn_float text
      = Bot.halfUp2 (Bot.rawEarnCore (Bot.pyLower text.data)) ∧
    Bot.compute_earn_float text = Bot.rawEarnCore (Bot.pyLower text.data) ∧
    Bot.compute_earn_float text = (Bot.compute_earn_from_text text).1 := by
  obtain ⟨k, hk⟩ := Bot.rawEarn_nat (Bot.pyLower text.data)
  have hfe : Bot.floatEarnCore (Bot.pyLower text.data)
      = Bot.rawEarnCore (Bot.pyLower text.data) :=
    Bot.floatEarn_eq_raw _ h
  have h1 : Bot.compute_earn_float text
      = Bot.pyRound2 (Bot.rawEarnCore (Bot.pyLower text.data)) := by
    unfold Bot.compute_earn_float
    rw [hfe]
  refine ⟨⟨k, hk⟩, ?_, ?_, ?_⟩
  · rw [h1, hk, Bot.pyRound2_natCast, Bot.halfUp2_natCast]
  · rw [h1, hk, Bot.pyRound2_natCast]
  · rw [h1]
    exact (Bot.compute1_eq_round_raw _).symm

/-- Witness for the amended C7 at the concrete text `+мк`, whose exact
sum of contributing prices is 15. -/
theorem c7_amount_rounding_in_range_witness :
    Bot.rawEarnCore (Bot.pyLower "+мк".data) ≤ 2 ^ 53 ∧
    Bot.compute_earn_float "+мк" = Bot.rawEarnCore (Bot.pyLower "+мк".data) := by
  have hga0 : Bot.gabScanList (Bot.afterPlus (Bot.pyLower "+мк".data)) = [] := by
    rw [show Bot.afterPlus (Bot.pyLower "+мк".data) = ['м', 'к'] from rfl,
      Bot.gabScanList_cons_of_none _ _ (by decide),
      Bot.gabScanList_cons_of_none _ _ (by decide), Bot.gabScanList_nil]
  have hb : (Bot.basePart (Bot.pyLower "+мк".data)).1 = Bot.PRICE_BASE := by
    unfold Bot.basePart
    rw [if_neg (by decide)]
  have hmk : (Bot.mkPart (Bot.afterPlus (Bot.pyLower "+мк".data))).1
      = Bot.PRICE_MK := by
    unfold Bot.mkPart
    rw [if_pos (by decide)]
  have hc : (Bot.colorParts (Bot.afterPlus (Bot.pyLower "+мк".data))).1 = 0 := rfl
  have hg : (Bot.gabParts (Bot.afterPlus (Bot.pyLower "+мк".data))).1 = 0 := by
    rw [Bot.gabParts_fst, hga0, List.foldl_nil]
  have hbp : (Bot.barePart (Bot.afterPlus (Bot.pyLower "+мк".data))).1 = 0 := by
    unfold Bot.barePart
    rw [if_neg (by decide)]
  have hraw : Bot.rawEarnCore (Bot.pyLower "+мк".data) = 15 := by
    unfold Bot.rawEarnCore
    rw [if_neg (by decide), hb, hmk, hc, hg, hbp]
    norm_num [Bot.PRICE_BASE, Bot.PRICE_MK]
  have hle : Bot.rawEarnCore (Bot.pyLower "+мк".data) ≤ 2 ^ 53 := by
    rw [hraw]
    norm_num
  exact ⟨hle, (c7_amount_rounding_in_range "+мк" hle).2.2.1⟩

/-- C6: the cash extractor returns the value of the first numeric token
(digits with an optional single `.` or `,` separator) found anywhere in
the text — `,` is read as the decimal point — and returns `0` when no
numeric token exists.  On the spec's example it extracts the house
number `12`, not `15`: any digit-free prefix is skipped and the scan
stops at the first digit. -/
theorem c6_parse_cash :
    Bot.parse_cash_from_text "Минская 12, +мк 15р" = 12 ∧
    Bot.parse_cash_from_text "Минская 12, +мк 15р" ≠ 15 ∧
    Bot.parse_cash_from_text "цена 3,5" = 7 / 2 ∧
    (∀ text : String, (∀ c ∈ text.data, Bot.isDigitC c = false) →
        Bot.parse_cash_from_text text = 0) ∧
    (∀ pre rest : List Char, (∀ c ∈ pre, Bot.isDigitC c = false) →
        Bot.searchNum (pre ++ rest) = Bot.searchNum rest) := by
  have hv1 : Bot.parse_cash_from_text "Минская 12, +мк 15р" = 12 := by
    unfold Bot.parse_cash_from_text
    rw [show Bot.searchNum "Минская 12, +мк 15р".data
        = some (((12 : ℕ) : ℚ) + ((0 : ℕ) : ℚ) / (10 : ℚ) ^ (0 : ℕ)) from rfl]
    show ((12 : ℕ) : ℚ) + ((0 : ℕ) : ℚ) / (10 : ℚ) ^ (0 : ℕ) = 12
    norm_num
  refine ⟨hv1, by rw [hv1]; norm_num, ?_, ?_, Bot.searchNum_skip⟩
  · unfold Bot.parse_cash_from_text
    rw [show Bot.searchNum "цена 3,5".data
        = some (((3 : ℕ) : ℚ) + ((5 : ℕ) : ℚ) / (10 : ℚ) ^ (1 : ℕ)) from rfl]
    show ((3 : ℕ) : ℚ) + ((5 : ℕ) : ℚ) / (10 : ℚ) ^ (1 : ℕ) = 7 / 2
    norm_num
  · intro text h
    unfold Bot.parse_cash_from_text
    rw [Bot.searchNum_none text.data h]

/-- Witness for C6's universal parts at concrete inputs. -/
theorem c6_parse_cash_witness :
    Bot.parse_cash_from_text "abc" = 0 ∧
    Bot.searchNum ("xy".data ++ "12".data) = Bot.searchNum "12".data :=
  ⟨c6_parse_cash.2.2.2.1 "abc" (by decide),
   c6_parse_cash.2.2.2.2 "xy".data "12".data (by decide)⟩

/-- C5: the three spellings `3 габ`, `3*габ` and `3габ` after the first
`+` parse identically whatever follows them, the trigger `3габ` is
reported, and a numeric `габ` occurrence contributes exactly
`3 × PRICE_GAB_UNIT`; the bare word `габ` adds exactly one unit price
when no digit-prefixed `габ` pattern occurs after the first `+`, and any
digit-prefixed occurrence — for example a `2габ` substring — suppresses
the bare-word trigger entirely. -/
theorem c5_gab_spellings :
    (∀ lsuf : List Char,
      Bot.compute_earn_from_text ⟨'+' :: '3' :: ' ' :: 'г' :: 'а' :: 'б' :: lsuf⟩
        = Bot.compute_earn_from_text ⟨'+' :: '3' :: '*' :: 'г' :: 'а' :: 'б' :: lsuf⟩ ∧
      Bot.compute_earn_from_text ⟨'+' :: '3' :: '*' :: 'г' :: 'а' :: 'б' :: lsuf⟩
        = Bot.compute_earn_from_text ⟨'+' :: '3' :: 'г' :: 'а' :: 'б' :: lsuf⟩ ∧
      "3габ" ∈ (Bot.compute_earn_from_text ⟨'+' :: '3' :: 'г' :: 'а' :: 'б' :: lsuf⟩).2 ∧
      (Bot.gabParts ('3' :: 'г' :: 'а' :: 'б' :: Bot.pyLower lsuf)).1
        = 3 * Bot.PRICE_GAB_UNIT + (Bot.gabParts (Bot.pyLower lsuf)).1) ∧
    (∀ text : String,
      Bot.hasNumGab (Bot.afterPlus (Bot.pyLower text.data)) = true →
        "габ" ∉ (Bot.compute_earn_from_text text).2) ∧
    (∀ text : String,
      Bot.subl ['2', 'г', 'а', 'б'] (Bot.afterPlus (Bot.pyLower text.data)) = true →
        "габ" ∉ (Bot.compute_earn_from_text text).2) ∧
    (∀ a : List Char, Bot.searchWB ['г', 'а', 'б'] none a = true →
      Bot.hasNumGab a = false →
      Bot.barePart a = (Bot.PRICE_GAB_UNIT, ["габ"])) := by
  refine ⟨?_, Bot.gab_not_in_triggers, ?_, ?_⟩
  · intro lsuf
    refine ⟨?_, ?_, ?_, Bot.gabParts_frag_amount (Bot.pyLower lsuf)⟩
    · show Bot.compute_earn_core ('+' :: '3' :: ' ' :: 'г' :: 'а' :: 'б' :: Bot.pyLower lsuf)
          = Bot.compute_earn_core ('+' :: '3' :: '*' :: 'г' :: 'а' :: 'б' :: Bot.pyLower lsuf)
      exact Bot.c5pair1 (Bot.pyLower lsuf)
    · show Bot.compute_earn_core ('+' :: '3' :: '*' :: 'г' :: 'а' :: 'б' :: Bot.pyLower lsuf)
          = Bot.compute_earn_core ('+' :: '3' :: 'г' :: 'а' :: 'б' :: Bot.pyLower lsuf)
      exact Bot.c5pair2 (Bot.pyLower lsuf)
    · show "3габ" ∈ (Bot.compute_earn_core ('+' :: '3' :: 'г' :: 'а' :: 'б'
          :: Bot.pyLower lsuf)).2
      exact Bot.mem3gab (Bot.pyLower lsuf)
  · intro text h
    exact Bot.gab_not_in_triggers text (Bot.hasNumGab_of_sub2 _ h)
  · intro a h1 h2
    unfold Bot.barePart
    rw [h1, h2]
    rfl

/-- Witness for C5 at concrete inputs: the three spellings agree on the
empty context, and `+2габ` carries no bare-word trigger. -/
theorem c5_gab_spellings_witness :
    Bot.compute_earn_from_text ⟨'+' :: '3' :: ' ' :: 'г' :: 'а' :: 'б' :: []⟩
      = Bot.compute_earn_from_text ⟨'+' :: '3' :: 'г' :: 'а' :: 'б' :: []⟩ ∧
    "габ" ∉ (Bot.compute_earn_from_text "+2габ").2 :=
  ⟨((c5_gab_spellings.1 []).1).trans ((c5_gab_spellings.1 []).2.1),
   c5_gab_spellings.2.2.1 "+2габ" (by decide)⟩
